import Mathlib

/-!
# cramCortex — verification of the spec claims against the source

Shallow embedding of the chunked LLM orchestration pipeline of the
cramCortex backend (`backend/app/services/hebrew_translator.py`,
`backend/app/services/llm_service.py`, `backend/app/api/analysis.py`).

Python strings are modelled as `List Char`.  The network (LLM responses)
is modelled as an oracle parameter, so every function of the source that
performs I/O becomes a pure function of the oracle.  Python `re` usage is
modelled by a small backtracking matcher over the exact patterns that
appear in the source (character classes restricted to the ASCII reading
of `\d` and the Unicode whitespace set of `\s`; `str.lower()` is modelled
on its ASCII fragment, which is exact for every character the patterns of
this code base distinguish).
-/

set_option maxRecDepth 4096

namespace CramCortex

abbrev Str := List Char

def str (s : String) : Str := s.data

/-- Unicode whitespace as matched by Python's `str.isspace` / regex `\s`. -/
def isPySpace (c : Char) : Bool :=
  let n := c.toNat
  n == 0x20 || n == 0x09 || n == 0x0a || n == 0x0d || n == 0x0b || n == 0x0c ||
  (0x1c ≤ n && n ≤ 0x1f) || n == 0x85 || n == 0xa0 || n == 0x1680 ||
  (0x2000 ≤ n && n ≤ 0x200a) || n == 0x2028 || n == 0x2029 || n == 0x202f ||
  n == 0x205f || n == 0x3000

/-- ASCII decimal digit (model of regex `\d` on the inputs of interest). -/
def isPyDigit (c : Char) : Bool := '0' ≤ c && c ≤ '9'

/-- Model of Python `str.strip()`. -/
def stripStr (s : Str) : Str :=
  ((s.dropWhile isPySpace).reverse.dropWhile isPySpace).reverse

/-- Model of Python `str.lower()` (ASCII fragment). -/
def toLowerStr (s : Str) : Str := s.map Char.toLower

/-- Numeric value of a digit string (Python `int(...)` on `\d+`). -/
def natOfDigits (s : Str) : Nat :=
  s.foldl (fun n c => n * 10 + (c.toNat - '0'.toNat)) 0

/-- Does `pat` occur as a contiguous substring of `s`?  (Python `in`.) -/
def containsSub (pat : Str) (s : Str) : Bool :=
  (List.range (s.length + 1)).any (fun i => pat.isPrefixOf (s.drop i))

/-- Model of Python `str.replace(pat, "")` with a non-empty pattern:
remove all non-overlapping occurrences, scanning left to right. -/
def removeAllAux (pat : Str) : Nat → Str → Str
  | 0, s => s
  | _, [] => []
  | fuel + 1, s@(c :: t) =>
    if pat ≠ [] ∧ pat.isPrefixOf s then removeAllAux pat fuel (s.drop pat.length)
    else c :: removeAllAux pat fuel t

def removeAll (pat : Str) (s : Str) : Str := removeAllAux pat s.length s

/-- Model of Python `re.sub(r'\s+', ' ', s)`: collapse every maximal run of
whitespace into a single space. -/
def collapseWs : Str → Str
  | [] => []
  | [c] => if isPySpace c then [' '] else [c]
  | c :: d :: t =>
    if isPySpace c then
      (if isPySpace d then collapseWs (d :: t) else ' ' :: collapseWs (d :: t))
    else c :: collapseWs (d :: t)

/-- Model of Python `text.split(sep)` for a non-empty separator. -/
def splitOnAux (sep : Str) : Nat → Str → Str → List Str
  | 0, acc, s => [acc.reverse ++ s]
  | _, acc, [] => [acc.reverse]
  | fuel + 1, acc, s@(c :: t) =>
    if sep ≠ [] ∧ sep.isPrefixOf s then acc.reverse :: splitOnAux sep fuel [] (s.drop sep.length)
    else splitOnAux sep fuel (c :: acc) t

def splitOnSub (sep : Str) (s : Str) : List Str := splitOnAux sep s.length [] s

/-- `intercalate` for `Str` chunks. -/
def joinSep (sep : Str) : List Str → Str
  | [] => []
  | [x] => x
  | x :: xs => x ++ sep ++ joinSep sep xs

def joinAll : List Str → Str
  | [] => []
  | x :: xs => x ++ joinAll xs

/-! ## A small backtracking regex matcher

Sufficient for every pattern occurring in the source: literals,
character classes, greedy/lazy class repetition, alternation and the
MULTILINE `$` anchor.  `runRE r s` returns the list of possible
remaining suffixes after matching a prefix of `s`, in the priority
order of Python's backtracking engine (so the head of the list is the
match Python's `re` chooses). -/

inductive RE where
  | eps
  | lit (l : Str)
  | cls (p : Char → Bool)
  | seq (a b : RE)
  | alt (a b : RE)
  | starCls (p : Char → Bool)
  | lazyCls (p : Char → Bool)
  | plusCls (p : Char → Bool)
  | repCls (p : Char → Bool) (lo hi : Nat)
  | eol

def countWhile (p : Char → Bool) (s : Str) : Nat := (s.takeWhile p).length

def runRE : RE → Str → List Str
  | .eps, s => [s]
  | .lit l, s => if l.isPrefixOf s then [s.drop l.length] else []
  | .cls _, [] => []
  | .cls p, c :: t => if p c then [t] else []
  | .seq a b, s => (runRE a s).flatMap (runRE b)
  | .alt a b, s => runRE a s ++ runRE b s
  | .starCls p, s =>
    let k := countWhile p s
    (List.range (k + 1)).map (fun i => s.drop (k - i))
  | .lazyCls p, s =>
    let k := countWhile p s
    (List.range (k + 1)).map (fun i => s.drop i)
  | .plusCls p, s =>
    let k := countWhile p s
    if k = 0 then [] else (List.range k).map (fun i => s.drop (k - i))
  | .repCls p lo hi, s =>
    let k := min (countWhile p s) hi
    if k < lo then [] else (List.range (k + 1 - lo)).map (fun i => s.drop (k - i))
  | .eol, [] => [[]]
  | .eol, s@(c :: _) => if c = '\n' then [s] else []

/-- Does `r` match a prefix of `s` (used for `re.match` at position 0 and
for zero-width look-ahead at a scan position)? -/
def matchesAt (r : RE) (s : Str) : Bool := runRE r s ≠ []

/-- Number of characters consumed by the match Python's engine selects. -/
def matchHeadLen (r : RE) (s : Str) : Option Nat :=
  (runRE r s).head?.map (fun rest => s.length - rest.length)

def seqList : List RE → RE
  | [] => .eps
  | [r] => r
  | r :: rs => .seq r (seqList rs)

def altList : List RE → RE
  | [] => .lit ['\x00']   -- never matches in the texts of interest
  | [r] => r
  | r :: rs => .alt r (altList rs)

/-- Case-sensitive literal. -/
def csLit (s : String) : RE := .lit s.data

/-- Case-insensitive literal (`re.IGNORECASE`). -/
def ciLit (s : String) : RE :=
  seqList (s.data.map (fun ch => RE.cls (fun c => c.toLower == ch.toLower)))

/-- `.*?` without DOTALL: lazily matches characters other than newline. -/
def lazyDot : RE := .lazyCls (fun c => c ≠ '\n')

def starWs : RE := .starCls isPySpace
def plusWs : RE := .plusCls isPySpace
def reDigits : RE := .plusCls isPyDigit

/-- `re.sub` with every pattern match replaced by `repl`.  When `anchored`
is true the pattern carries a leading `^` under `re.MULTILINE`, so match
attempts happen only at the start of a line. -/
def reSubAux (r : RE) (anchored : Bool) (repl : Str) : Nat → Bool → Str → Str
  | 0, _, s => s
  | _, _, [] => []
  | fuel + 1, atLS, s@(c :: t) =>
    if !anchored || atLS then
      match matchHeadLen r s with
      | some (k + 1) =>
        repl ++ reSubAux r anchored repl fuel ((s.take (k + 1)).getLast? == some '\n') (s.drop (k + 1))
      | _ => c :: reSubAux r anchored repl fuel (c == '\n') t
    else c :: reSubAux r anchored repl fuel (c == '\n') t

def reSub (r : RE) (anchored : Bool) (repl : Str) (s : Str) : Str :=
  reSubAux r anchored repl s.length true s

/-- The split positions of `re.split(r'(?=...)', s)`: every position where
the look-ahead matches.  The component `re0` is the pattern as read at
position 0 (where `^` succeeds), `reP` as read elsewhere. -/
def lookSplitPoints (re0 reP : RE) (s : Str) : List Nat :=
  (List.range (s.length + 1)).filter
    (fun p => matchesAt (if p = 0 then re0 else reP) (s.drop p))

def cutAtAux : Str → Nat → List Nat → List Str
  | s, _, [] => [s]
  | s, off, p :: ps => s.take (p - off) :: cutAtAux (s.drop (p - off)) p ps

def cutAt (s : Str) (pts : List Nat) : List Str := cutAtAux s 0 pts

def lookSplit (re0 reP : RE) (s : Str) : List Str :=
  cutAt s (lookSplitPoints re0 reP s)

/-- Decimal digit character. -/
def digitChar : Nat → Char
  | 0 => '0' | 1 => '1' | 2 => '2' | 3 => '3' | 4 => '4'
  | 5 => '5' | 6 => '6' | 7 => '7' | 8 => '8' | _ => '9'

def natStrAux : Nat → Nat → Str
  | 0, _ => []
  | fuel + 1, n => if n < 10 then [digitChar n] else natStrAux fuel (n / 10) ++ [digitChar (n % 10)]

/-- Decimal representation of a natural number (Python `str(n)` /
f-string interpolation of an `int`). -/
def natStr (n : Nat) : Str := natStrAux (n + 1) n

def inR (lo hi : Nat) (c : Char) : Bool := decide (lo ≤ c.toNat) && decide (c.toNat ≤ hi)

/-- Fixed-width slicing fallback `for i in range(0, len(text), N)`,
shared by both chunkers. -/
def sliceAux (N : Nat) : Nat → Str → List Str
  | 0, _ => []
  | _, [] => []
  | fuel + 1, s => s.take N :: sliceAux N fuel (s.drop N)

def slice_chunks (N : Nat) (s : Str) : List Str :=
  if N = 0 then [] else sliceAux N s.length s

/-! ## `backend/app/services/hebrew_translator.py` -/

namespace HebrewTranslator

/-- `self.max_chunk_size` as set in `HebrewTranslator.__init__`. -/
def hebrewMaxChunkSize : Nat := 3000

/-- Characters matched by `_is_hebrew_text`'s pattern
`[֐-׿؀-ۿݐ-ݿࢠ-ࣿיִ-ﭏ]`. -/
def isHebrewDetectChar (c : Char) : Bool :=
  inR 0x590 0x5FF c || inR 0x600 0x6FF c || inR 0x750 0x77F c ||
  inR 0x8A0 0x8FF c || inR 0xFB1D 0xFB4F c

def is_hebrew_text (t : Str) : Bool := t.any isHebrewDetectChar

/-- Unicode Hebrew script proper (block `0590-05FF` plus the Hebrew
presentation forms `FB1D-FB4F`) — what the spec's phrase
"Hebrew-script characters" denotes, strictly narrower than the
detector above (which also matches Arabic-script blocks). -/
def hebrewScriptChar (c : Char) : Bool :=
  inR 0x590 0x5FF c || inR 0xFB1D 0xFB4F c

/-- Characters matched by `_contains_hebrew_characters`'s patterns:
Hebrew `0590-05FF`, Arabic `0600-06FF`, Hebrew presentation forms
`FB1D-FB4F`, RTL markers `200F`/`202E`. -/
def strictHebrewChar (c : Char) : Bool :=
  inR 0x590 0x5FF c || inR 0x600 0x6FF c || inR 0xFB1D 0xFB4F c ||
  c.toNat == 0x200F || c.toNat == 0x202E

def contains_hebrew_characters (t : Str) : Bool := t.any strictHebrewChar

/-- Characters removed by `_force_remove_hebrew` (the strict set plus the
General Punctuation block `2000-206F`). -/
def forceRemovedChar (c : Char) : Bool := strictHebrewChar c || inR 0x2000 0x206F c

/-- `_force_remove_hebrew`: delete the forbidden-range characters,
collapse whitespace, and if more than 70% of the input was removed
prepend a `[TRANSLATION_CLEANED: ...]` marker.  (Python compares
`len(text) < len(original_text) * 0.3` in floating point; the exact
rational comparison used here agrees except on floating-point
boundary noise that no claim depends on.) -/
def force_remove_hebrew (text : Str) : Str :=
  let t := text.filter (fun c => !forceRemovedChar c)
  let t := stripStr (collapseWs t)
  if 10 * t.length < 3 * text.length then
    str "[TRANSLATION_CLEANED: " ++ natStr text.length ++ str " chars -> " ++
      natStr t.length ++ str " chars] " ++ t
  else t

/-- `_split_by_sentences`; `cur` holds the current sentence reversed. -/
def sentenceEnding (c : Char) : Bool :=
  c == '.' || c == '!' || c == '?' || c == '。' || c == '！' || c == '？'

def split_by_sentences_aux (cur : Str) : Str → List Str
  | [] => if stripStr cur.reverse ≠ [] then [stripStr cur.reverse] else []
  | c :: t =>
    if sentenceEnding c then stripStr (c :: cur).reverse :: split_by_sentences_aux [] t
    else split_by_sentences_aux (c :: cur) t

def split_by_sentences (text : Str) : List Str := split_by_sentences_aux [] text

/-- Inner sentence loop of `_chunk_hebrew_text`: returns the chunks it
appends plus the final `temp_chunk`. -/
def chunk_sentences (N : Nat) : List Str → Str → List Str × Str
  | [], temp => ([], temp)
  | s :: rest, temp =>
    if temp.length + s.length + 1 > N then
      let (cs, t) := chunk_sentences N rest s
      ((if temp ≠ [] then [stripStr temp] else []) ++ cs, t)
    else chunk_sentences N rest (if temp = [] then s else temp ++ [' '] ++ s)

/-- Outer paragraph loop of `_chunk_hebrew_text`. -/
def chunk_paragraphs (N : Nat) : List Str → Str → List Str
  | [], cur => if cur ≠ [] then [stripStr cur] else []
  | p :: rest, cur =>
    if cur.length + p.length + 2 > N then
      (if cur ≠ [] then [stripStr cur] else []) ++
      (if p.length > N then
        let (cs, temp) := chunk_sentences N (split_by_sentences p) []
        cs ++ chunk_paragraphs N rest temp
      else chunk_paragraphs N rest p)
    else chunk_paragraphs N rest (if cur = [] then p else cur ++ str "\n\n" ++ p)

/-- `_chunk_hebrew_text`. -/
def chunk_hebrew_text (N : Nat) (text : Str) : List Str :=
  if text.length ≤ N then [text]
  else
    let chunks := chunk_paragraphs N (splitOnSub (str "\n\n") text) []
    if chunks.length = 1 ∧ text.length > N then slice_chunks N text else chunks

/-- The allow-list of `_sanitize_llm_response`'s regex
`[A-Za-z0-9.,!?;:()'\"\-\s\n]` (codepoints: letters `41-5A`/`61-7A`,
digits `30-39`, `. , ! ? ; : ( ) ' " -`, whitespace). -/
def allowedReChar (c : Char) : Bool :=
  let n := c.toNat
  (0x41 ≤ n && n ≤ 0x5A) || (0x61 ≤ n && n ≤ 0x7A) || (0x30 ≤ n && n ≤ 0x39) ||
  n == 0x2E || n == 0x2C || n == 0x21 || n == 0x3F || n == 0x3B || n == 0x3A ||
  n == 0x28 || n == 0x29 || n == 0x27 || n == 0x22 || n == 0x2D || isPySpace c

/-- The artifact phrases removed by `_sanitize_llm_response`. -/
def translationArtifacts : List Str :=
  [str "Translation:", str "English translation:", str "Output:", str "Result:",
   str "Here is the translation:", str "The translation is:"]

/-- `_sanitize_llm_response`. -/
def sanitize_llm_response (raw : Str) : Str :=
  if raw = [] then str "[EMPTY_RESPONSE]"
  else
    let t := stripStr raw
    let t := translationArtifacts.foldl (fun t a => stripStr (removeAll a t)) t
    let t := t.filter allowedReChar
    let t := stripStr (collapseWs t)
    if t = [] then str "[SANITIZATION_FAILED]" else t

/-- `_emergency_hebrew_purge`: keep only 7-bit characters. -/
def emergency_hebrew_purge (text : Str) : Str :=
  let a := text.filter (fun c => decide (c.toNat < 128))
  let a := stripStr (collapseWs a)
  if a = [] then str "[ASCII_PURGE_RESULT_EMPTY]" else a

/-- The explicit allowed-character set of the final validation's
"Layer 2" (`set('ABC...xyz0123456789.,!?;:()"\'-\n ')` in
`translate_hebrew_to_english`): letters, digits,
`. , ! ? ; : ( ) " ' -`, newline and space. -/
def englishAllowedChar (c : Char) : Bool :=
  let n := c.toNat
  (0x41 ≤ n && n ≤ 0x5A) || (0x61 ≤ n && n ≤ 0x7A) || (0x30 ≤ n && n ≤ 0x39) ||
  n == 0x2E || n == 0x2C || n == 0x21 || n == 0x3F || n == 0x3B || n == 0x3A ||
  n == 0x28 || n == 0x29 || n == 0x22 || n == 0x27 || n == 0x2D ||
  n == 0x0A || n == 0x20

/-- One iteration of the MULTI-LAYER FINAL VALIDATION `while` loop in
`translate_hebrew_to_english`: `none` means validation passed, `some t`
means a cleanup layer fired and the loop continues with `t`.  `nfkc`
models `unicodedata.normalize('NFKC', ·)`. -/
def final_validation_step (nfkc : Str → Str) (s : Str) : Option Str :=
  if contains_hebrew_characters s then some (force_remove_hebrew s)
  else if s.any (fun c => !englishAllowedChar c) then
    some (stripStr (collapseWs (s.filter englishAllowedChar)))
  else if nfkc s ≠ s then some (nfkc s)
  else none

/-- The validation `while` loop (at most `max_validation_attempts = 3`
iterations); returns the final text and `validation_passed`. -/
def final_validation_loop (nfkc : Str → Str) : Nat → Str → Str × Bool
  | 0, s => (s, false)
  | fuel + 1, s =>
    match final_validation_step nfkc s with
    | none => (s, true)
    | some t => final_validation_loop nfkc fuel t

/-- The emergency fallback after the validation loop: if validation did
not pass, purge to ASCII and, failing even that, substitute the
catastrophic-failure sentinel. -/
def finalize_translation (nfkc : Str → Str) (final0 : Str) : Str × Bool :=
  let (f1, passed) := final_validation_loop nfkc 3 final0
  if passed then (f1, true)
  else
    let purged := emergency_hebrew_purge f1
    (if purged.any (fun c => !decide (c.toNat < 128)) then
      str "[CATASTROPHIC_TRANSLATION_FAILURE - HEBREW_REMOVAL_IMPOSSIBLE]"
    else purged, false)

/-- `_translate_chunk`, with the LLM modelled by `oracle : Nat → Except Unit Str`
giving each attempt's outcome (`.error` = exception raised by the API call,
`.ok raw` = raw response text).  Returns the chunk result together with the
number of API calls issued.  `fuel` is the number of attempts left
including the current one (`max_retries = 5`); `fuel = 1` is the last
attempt. -/
def translate_chunk_aux (oracle : Nat → Except Unit Str) (i : Nat) :
    Nat → Nat → Option Str × Nat
  | _, 0 => (none, 0)
  | attempt, fuel + 1 =>
    match oracle attempt with
    | .error _ =>
      if fuel = 0 then (some (str "[TRANSLATION_ERROR_CHUNK_" ++ natStr (i + 1) ++ str "]"), 1)
      else
        let (r, n) := translate_chunk_aux oracle i (attempt + 1) fuel
        (r, n + 1)
    | .ok raw =>
      let translation := sanitize_llm_response raw
      if contains_hebrew_characters translation then
        if fuel = 0 then (some (force_remove_hebrew translation), 1)
        else
          let (r, n) := translate_chunk_aux oracle i (attempt + 1) fuel
          (r, n + 1)
      else if translation ≠ [] ∧ translation.length > 10 then (some translation, 1)
      else if fuel = 0 then
        (some (str "[TRANSLATION_FAILED_FOR_CHUNK_" ++ natStr (i + 1) ++ str "]"), 1)
      else
        let (r, n) := translate_chunk_aux oracle i (attempt + 1) fuel
        (r, n + 1)

def translate_chunk (oracle : Nat → Except Unit Str) (i : Nat) : Option Str × Nat :=
  translate_chunk_aux oracle i 0 5

/-- The result dictionary of `translate_hebrew_to_english`.  Keys absent
from a given return path are modelled by `none` / the `false` default
(`hebrew_free_guaranteed` is only ever set on the fully validated path). -/
structure TranslationResult where
  translated_text : Str
  original_chunks : Nat
  translated_chunks : Option Nat := none
  success : Bool
  has_hebrew : Bool
  hebrew_free_guaranteed : Bool := false
  message : Option Str := none
  error : Option Str := none
deriving DecidableEq

/-- `translate_hebrew_to_english`, parametric in the LLM oracle
(`oracle i a` = outcome of attempt `a` for chunk `i`) and in the NFKC
normalization function.  The second component counts the LLM calls
issued.  (The enclosing `try/except` of the source cannot fire in this
pure model and is omitted.) -/
def translate_hebrew_to_english (text : Str) (oracle : Nat → Nat → Except Unit Str)
    (nfkc : Str → Str) : TranslationResult × Nat :=
  if is_hebrew_text text then
    let chunks := chunk_hebrew_text hebrewMaxChunkSize text
    let outs := (List.range chunks.length).map (fun i => translate_chunk (oracle i) i)
    let calls := (outs.map Prod.snd).sum
    let successful := outs.filterMap Prod.fst
    if successful = [] then
      ({ translated_text := text, original_chunks := chunks.length, success := false,
         has_hebrew := true, error := some (str "Translation failed for all chunks") }, calls)
    else
      let final0 := if chunks.length = 1 then successful.headD [] else joinSep (str "\n\n") successful
      let fin := finalize_translation nfkc final0
      ({ translated_text := fin.1, original_chunks := chunks.length,
         translated_chunks := some successful.length, success := true, has_hebrew := false,
         hebrew_free_guaranteed := true,
         message := some (str "Successfully translated " ++ natStr successful.length ++ str "/" ++
           natStr chunks.length ++ str " chunks - NO HEBREW REMAINING") }, calls)
  else
    ({ translated_text := text, original_chunks := 1, success := true, has_hebrew := false,
       message := some (str "No Hebrew text detected in input") }, 0)

end HebrewTranslator

/-! ## `backend/app/services/llm_service.py` -/

namespace LLMService

/-- `self.max_chunk_size` as set in `LLMService.__init__`. -/
def llmMaxChunkSize : Nat := 3000

/-! ### `_preprocess_text`

The instruction-removal patterns all have the form `^... .*?\n` under
`re.MULTILINE | re.IGNORECASE`; each is modelled as an anchored `reSub`
with the empty replacement. -/

def instructionREs : List RE :=
  [ -- r'^.*?(תקנון|הוראות|הנחיות|ביאור|רקע|הורמאות).*?\n'
    seqList [lazyDot, altList [csLit "תקנון", csLit "הוראות", csLit "הנחיות",
      csLit "ביאור", csLit "רקע", csLit "הורמאות"], lazyDot, csLit "\n"],
    -- r'^.*?(Instructions|Directions|Guidelines|Background|Note).*?\n'
    seqList [lazyDot, altList [ciLit "Instructions", ciLit "Directions", ciLit "Guidelines",
      ciLit "Background", ciLit "Note"], lazyDot, csLit "\n"],
    -- r'^\s*שם\s*המועמד.*?\n'
    seqList [starWs, csLit "שם", starWs, csLit "המועמד", lazyDot, csLit "\n"],
    -- r'^\s*(Name|Student|ID).*?:.*?\n'
    seqList [starWs, altList [ciLit "Name", ciLit "Student", ciLit "ID"], lazyDot,
      csLit ":", lazyDot, csLit "\n"],
    -- r'^\s*מספר\s*תעודת\s*זהות.*?\n'
    seqList [starWs, csLit "מספר", starWs, csLit "תעודת", starWs, csLit "זהות",
      lazyDot, csLit "\n"],
    -- r'^\s*תאריך.*?\n'
    seqList [starWs, csLit "תאריך", lazyDot, csLit "\n"],
    -- r'^\s*(Date|Time|Duration).*?:.*?\n'
    seqList [starWs, altList [ciLit "Date", ciLit "Time", ciLit "Duration"], lazyDot,
      csLit ":", lazyDot, csLit "\n"],
    -- r'^\s*זמן\s*המבחן.*?\n'
    seqList [starWs, csLit "זמן", starWs, csLit "המבחן", lazyDot, csLit "\n"],
    -- r'^\s*ציון.*?\n'
    seqList [starWs, csLit "ציון", lazyDot, csLit "\n"],
    -- r'^\s*(Score|Grade|Points).*?:.*?\n'
    seqList [starWs, altList [ciLit "Score", ciLit "Grade", ciLit "Points"], lazyDot,
      csLit ":", lazyDot, csLit "\n"],
    -- r'^\s*חתימת\s*הבוחן.*?\n'
    seqList [starWs, csLit "חתימת", starWs, csLit "הבוחן", lazyDot, csLit "\n"],
    -- r'^\s*(Signature|Examiner).*?\n'
    seqList [starWs, altList [ciLit "Signature", ciLit "Examiner"], lazyDot, csLit "\n"],
    -- r'^\s*דף\s*\d+\s*מתוך\s*\d+.*?\n'
    seqList [starWs, csLit "דף", starWs, reDigits, starWs, csLit "מתוך", starWs,
      reDigits, lazyDot, csLit "\n"],
    -- r'^\s*Page\s*\d+\s*of\s*\d+.*?\n'
    seqList [starWs, ciLit "Page", starWs, reDigits, starWs, ciLit "of", starWs,
      reDigits, lazyDot, csLit "\n"],
    -- r'^.*?(Cybersecurity\s+Exam|Security\s+Test|מבחן\s+אבטחה).*?\n'
    seqList [lazyDot, altList [seqList [ciLit "Cybersecurity", plusWs, ciLit "Exam"],
      seqList [ciLit "Security", plusWs, ciLit "Test"],
      seqList [csLit "מבחן", plusWs, csLit "אבטחה"]], lazyDot, csLit "\n"],
    -- r'^.*?(Part\s+[A-Z]|חלק\s+[א-ז]).*?\n'  (IGNORECASE makes [A-Z] match a-z too)
    seqList [lazyDot, altList [seqList [ciLit "Part", plusWs,
      .cls (fun c => inR 0x41 0x5A c || inR 0x61 0x7A c)],
      seqList [csLit "חלק", plusWs, .cls (inR 0x5D0 0x5D6)]], lazyDot, csLit "\n"],
    -- r'^.*?(Total\s+Questions|סך\s+השאלות).*?\n'
    seqList [lazyDot, altList [seqList [ciLit "Total", plusWs, ciLit "Questions"],
      seqList [csLit "סך", plusWs, csLit "השאלות"]], lazyDot, csLit "\n"],
    -- r'^.*?בהצלחה.*?\n'
    seqList [lazyDot, csLit "בהצלחה", lazyDot, csLit "\n"] ]

/-- r'\n\s*\n\s*\n' (replaced by `'\n\n'`, unanchored). -/
def tripleBlankRE : RE := seqList [csLit "\n", starWs, csLit "\n", starWs, csLit "\n"]

/-- `_preprocess_text`. -/
def preprocess_text (text : Str) : Str :=
  let t := instructionREs.foldl (fun t r => reSub r true [] t) text
  let t := reSub tripleBlankRE false (str "\n\n") t
  reSub (RE.plusCls isPySpace) true [] t

/-! ### `_chunk_text_intelligently` -/

def questionDelim (c : Char) : Bool := c == '.' || c == ')'
def questionDelimColon (c : Char) : Bool := c == '.' || c == ')' || c == ':'

/-- Look-ahead cores of the eight `question_patterns`, without the common
`(?:\n|^)\s*` prefix. -/
def questionPatternCores : List RE :=
  [ -- r'(?=(?:\n|^)\s*(?:\d+)[\.\)]\s*)'
    seqList [reDigits, .cls questionDelim, starWs],
    -- r'(?=(?:\n|^)\s*(?:שאלה\s*\d+)[\.\):]\s*)'
    seqList [csLit "שאלה", starWs, reDigits, .cls questionDelimColon, starWs],
    -- r'(?=(?:\n|^)\s*(?:Question\s*\d+)[\.\):]\s*)'
    seqList [csLit "Question", starWs, reDigits, .cls questionDelimColon, starWs],
    -- r'(?=(?:\n|^)\s*(?:Q\d+)[\.\):]\s*)'
    seqList [csLit "Q", reDigits, .cls questionDelimColon, starWs],
    -- r'(?=(?:\n|^)\s*(?:\(\d+\))\s*)'
    seqList [csLit "(", reDigits, csLit ")", starWs],
    -- r'(?=(?:\n|^)\s*(?:\d+\s*[\-\–\—])\s*)'
    seqList [reDigits, starWs, .cls (fun c => c == '-' || c == '–' || c == '—'), starWs],
    -- r'(?=(?:\n|^)\s*(?:\d+\s*\.)\s*(?:What|Which|How|When|Where|Why|If|A\s+security|The\s+best|An\s+attacker))'
    seqList [reDigits, starWs, csLit ".", starWs, altList [csLit "What", csLit "Which",
      csLit "How", csLit "When", csLit "Where", csLit "Why", csLit "If",
      seqList [csLit "A", plusWs, csLit "security"],
      seqList [csLit "The", plusWs, csLit "best"],
      seqList [csLit "An", plusWs, csLit "attacker"]]],
    -- r'(?=(?:\n|^)\s*(?:\d+\s*[\.\)])\s*(?:מה|איך|מתי|איפה|למה|כיצד|האם|מערכת\s+אבטחה|תוקף))'
    seqList [reDigits, starWs, .cls questionDelim, starWs, altList [csLit "מה",
      csLit "איך", csLit "מתי", csLit "איפה", csLit "למה", csLit "כיצד", csLit "האם",
      seqList [csLit "מערכת", plusWs, csLit "אבטחה"], csLit "תוקף"]] ]

/-- A core with the `(?:\n|^)\s*` prefix, as read at position 0 (`^`
succeeds) and at later positions (only the `\n` alternative can fire;
the pattern has no MULTILINE flag). -/
def questionPatternAt0 (core : RE) : RE := .seq (.alt (csLit "\n") .eps) (.seq starWs core)
def questionPatternAtP (core : RE) : RE := .seq (csLit "\n") (.seq starWs core)

/-- The `valid_segments` of one pattern: split, strip, keep the segments
longer than 15 characters. -/
def pattern_segments (text : Str) (core : RE) : List Str :=
  (lookSplit (questionPatternAt0 core) (questionPatternAtP core) text).filterMap
    (fun s => let t := stripStr s; if t ≠ [] ∧ t.length > 15 then some t else none)

/-- The pattern-selection loop: keep the segmentation with the strictly
largest count (`best_segments`, `[]` standing for Python's `None`). -/
def best_pattern_segments (text : Str) : List Str :=
  questionPatternCores.foldl (fun best core =>
    let v := pattern_segments text core
    if v.length > best.length then v else best) []

/-- r'^\d+[\.\)\-\s]+' of the numbered-lines fallback. -/
def numberedLineRE : RE :=
  .seq reDigits (.plusCls (fun c => c == '.' || c == ')' || c == '-' || isPySpace c))

/-- The numbered-lines fallback loop (`cur` is `current_segment`). -/
def fallbackNumberedAux : List Str → Str → List Str
  | [], cur => if cur ≠ [] then [stripStr cur] else []
  | l :: rest, cur =>
    let line := stripStr l
    if matchesAt numberedLineRE line ∧ line.length > 3 then
      (if cur ≠ [] then [stripStr cur] else []) ++ fallbackNumberedAux rest line
    else if cur ≠ [] then fallbackNumberedAux rest (cur ++ ['\n'] ++ line)
    else fallbackNumberedAux rest cur

def fallback_numbered_segments (text : Str) : List Str :=
  (fallbackNumberedAux (splitOnSub (str "\n") text) []).filter
    (fun s => (stripStr s).length > 20)

/-- `_looks_like_question_content`. -/
def questionContentIndicators : List Str :=
  [str "?", str "מה", str "איך", str "מתי", str "איפה", str "למה", str "כמה",
   str "what", str "how", str "when", str "where", str "why", str "which", str "who"]

def instructionKeywords : List Str :=
  [str "הוראות", str "הנחיות", str "תקנון", str "שם המועמד", str "תעודת זהות",
   str "זמן המבחן", str "instructions", str "directions", str "guidelines",
   str "name:", str "id:", str "student:", str "time:", str "duration:"]

def looks_like_question_content (t : Str) : Bool :=
  let tl := toLowerStr t
  (questionContentIndicators.any (fun k => containsSub k tl)) &&
  decide ((stripStr t).length > 15) &&
  !(instructionKeywords.any (fun k => containsSub k tl))

/-- The blank-line final fallback. -/
def final_fallback_segments (text : Str) : List Str :=
  ((splitOnSub (str "\n\n") text).filterMap
    (fun s => let t := stripStr s; if t ≠ [] then some t else none)).filter
    looks_like_question_content

/-- The complete segment-selection stage of `_chunk_text_intelligently`
(`best_segments` after the pattern loop, the numbered-lines fallback and
the blank-line fallback). -/
def select_segments (text : Str) : List Str :=
  let best1 := best_pattern_segments text
  let best2 :=
    if best1.length < 10 then
      let fb := fallback_numbered_segments text
      if fb.length > best1.length then fb else best1
    else best1
  if best2 = [] then final_fallback_segments text else best2

/-- The chunk-assembly loop of `_chunk_text_intelligently` (`cur` is
`current_chunk`).  Note the size check compares `len(current_chunk) +
len(segment)` but the join then inserts a two-character `"\n\n"`
separator. -/
def assemble_chunks (N : Nat) : List Str → Str → List Str
  | [], cur => if cur ≠ [] then [stripStr cur] else []
  | seg :: rest, cur =>
    if cur.length + seg.length > N then
      (if cur ≠ [] then [stripStr cur] else []) ++ assemble_chunks N rest seg
    else assemble_chunks N rest (if cur = [] then seg else cur ++ str "\n\n" ++ seg)

/-- `_chunk_text_intelligently`. -/
def chunk_text_intelligently (N : Nat) (rawText : Str) : List Str :=
  let text := preprocess_text rawText
  let best := select_segments text
  let chunks := assemble_chunks N best []
  if chunks.length = 1 ∧ text.length > N then slice_chunks N text else chunks

/-! ### `_extract_numbered_questions_deterministic` -/

/-- `re.match(r'^(\d+)[\.\)]\s*', t)`: the leading integer of a line that
starts with digits followed by `.` or `)` (also the parse used on
accepted questions' texts in recovery and quality control). -/
def leading_number (t : Str) : Option Nat :=
  let ds := t.takeWhile isPyDigit
  let delimNext : Bool :=
    match t.drop ds.length with
    | c :: _ => questionDelim c
    | [] => false
  if ds ≠ [] ∧ delimNext then some (natOfDigits ds) else none

structure DetQuestion where
  number : Nat
  text : Str
  raw_text : Str
  line_start : Int
  line_end : Int
deriving DecidableEq

def countNL (s : Str) : Nat := s.countP (fun c => c == '\n')

def mkDetQuestion (num : Nat) (cur : Str) (i : Nat) : DetQuestion :=
  { number := num, text := stripStr cur, raw_text := cur,
    line_start := (i : Int) - (countNL cur : Int), line_end := (i : Int) - 1 }

def extractAux : List Str → Nat → Str → Nat → List DetQuestion
  | [], i, cur, num => if cur ≠ [] ∧ num > 0 then [mkDetQuestion num cur i] else []
  | l :: rest, i, cur, num =>
    let line := stripStr l
    match leading_number line with
    | some n =>
      (if cur ≠ [] ∧ num > 0 then [mkDetQuestion num cur i] else []) ++
        extractAux rest (i + 1) line n
    | none =>
      if cur ≠ [] ∧ num > 0 then extractAux rest (i + 1) (cur ++ ['\n'] ++ line) num
      else extractAux rest (i + 1) cur num

def extract_numbered_questions_deterministic (text : Str) : List DetQuestion :=
  extractAux (splitOnSub (str "\n") text) 0 [] 0

/-! ### Candidate questions and `_validate_question` -/

/-- `source_chunk` is an `int` for LLM questions and the string
`'recovery'` for recovered ones. -/
inductive SourceChunkTag where
  | chunkIdx (n : Nat)
  | recoveryTag
deriving DecidableEq

/-- A candidate-question dictionary.  Fields the merge/validation logic
never reads (`answer_choices`, `keywords`, `is_valid_question`) are
omitted; keys that may be absent are `Option`s. -/
structure Question where
  question_id : Option Str := none
  question_text : Str := []
  question_type : Option Str := none
  topic : Option Str := none
  difficulty : Option Str := none
  confidence_score : Option Rat := none
  source_chunk : Option SourceChunkTag := none
  detection_method : Option Str := none
  question_number : Option Nat := none
deriving DecidableEq

def hebLetter (c : Char) : Bool := inR 0x5D0 0x5EA c      -- [א-ת]
def latinLetter (c : Char) : Bool := inR 0x41 0x5A c || inR 0x61 0x7A c
def dividerChar (c : Char) : Bool := c == '־' || c == '-' || c == '_' || c == '='

/-- The `reject_patterns` of `_validate_question`, matched with
`re.match(..., re.MULTILINE | re.IGNORECASE)` against the lowered,
stripped question text (so the case-insensitive literals operate on
lower-case text and `$` matches before any newline). -/
def rejectREs : List RE :=
  [ -- r'^.*?(שם|תעודת זהות|מספר|תאריך|זמן|ציון|חתימה).*?:'
    seqList [lazyDot, altList [csLit "שם", csLit "תעודת זהות", csLit "מספר",
      csLit "תאריך", csLit "זמן", csLit "ציון", csLit "חתימה"], lazyDot, csLit ":"],
    -- r'^.*?(הוראות|הנחיות|תקנון|ביאור|רקע)'
    seqList [lazyDot, altList [csLit "הוראות", csLit "הנחיות", csLit "תקנון",
      csLit "ביאור", csLit "רקע"]],
    -- r'^.*?דף\s*\d+\s*מתוך\s*\d+'
    seqList [lazyDot, csLit "דף", starWs, reDigits, starWs, csLit "מתוך", starWs, reDigits],
    -- r'^.*?בהצלחה|בהצלחה.*?$'
    .alt (seqList [lazyDot, csLit "בהצלחה"]) (seqList [csLit "בהצלחה", lazyDot, .eol]),
    -- r'^.*?מועד\s*[אב].*?$'
    seqList [lazyDot, csLit "מועד", starWs, .cls (fun c => c == 'א' || c == 'ב'),
      lazyDot, .eol],
    -- r'^.*?(name|student|id|date|time|score|signature).*?:'
    seqList [lazyDot, altList [ciLit "name", ciLit "student", ciLit "id", ciLit "date",
      ciLit "time", ciLit "score", ciLit "signature"], lazyDot, csLit ":"],
    -- r'^.*?(instructions|directions|guidelines|background|note)'
    seqList [lazyDot, altList [ciLit "instructions", ciLit "directions",
      ciLit "guidelines", ciLit "background", ciLit "note"]],
    -- r'^.*?page\s*\d+\s*of\s*\d+'
    seqList [lazyDot, ciLit "page", starWs, reDigits, starWs, ciLit "of", starWs, reDigits],
    -- r'^.*?good\s*luck'
    seqList [lazyDot, ciLit "good", starWs, ciLit "luck"],
    -- r'^.*?(exam|test)\s*(name|title)'
    seqList [lazyDot, .alt (ciLit "exam") (ciLit "test"), starWs,
      .alt (ciLit "name") (ciLit "title")],
    -- r'^\s*[־\-_=]{3,}'
    seqList [starWs, .cls dividerChar, .cls dividerChar, .cls dividerChar,
      .starCls dividerChar],
    -- r'^\s*\d+\s*$'
    seqList [starWs, reDigits, starWs, .eol],
    -- r'^\s*[א-ת\s]{1,3}\s*$'
    seqList [starWs, .repCls (fun c => hebLetter c || isPySpace c) 1 3, starWs, .eol],
    -- r'^\s*[a-zA-Z\s]{1,3}\s*$'
    seqList [starWs, .repCls (fun c => latinLetter c || isPySpace c) 1 3, starWs, .eol] ]

def validatorIndicators : List Str :=
  [str "?", str "מה", str "איך", str "מתי", str "איפה", str "למה", str "כמה",
   str "האם", str "מדוע", str "כיצד", str "what", str "how", str "when",
   str "where", str "why", str "which", str "who", str "explain", str "describe",
   str "calculate", str "solve", str "find", str "determine", str "identify",
   str "analyze", str "compare"]

def mcOptionIndicators : List Str :=
  [str "א)", str "ב)", str "ג)", str "ד)", str "A)", str "B)", str "C)", str "D)",
   str "1)", str "2)", str "3)", str "4)", str "(א)", str "(ב)", str "(ג)", str "(ד)",
   str "(A)", str "(B)", str "(C)", str "(D)", str "(1)", str "(2)", str "(3)", str "(4)"]

/-- `_validate_question`. -/
def validate_question (q : Question) : Bool :=
  let qt := stripStr q.question_text
  if qt = [] ∨ qt.length < 10 then false
  else
    let tl := toLowerStr qt
    if rejectREs.any (fun r => matchesAt r tl) then false
    else
      let hasInd := validatorIndicators.any (fun k => containsSub k tl)
      let hasOpts := mcOptionIndicators.any (fun p => containsSub p qt)
      if !(hasInd || hasOpts) then false
      else
        let conf := q.confidence_score.getD (mkRat 1 2)
        if conf < mkRat 1 100 then false
        else if q.question_type == some (str "unknown") && !hasOpts &&
            !containsSub (str "?") qt then
          (leading_number qt).isSome
        else true

/-! ### `_determine_question_type_simple` and `_recover_missing_questions` -/

def determine_question_type_simple (t : Str) : Str :=
  let tl := toLowerStr t
  if [str "a)", str "b)", str "c)", str "d)",
      str "A)", str "B)", str "C)", str "D)"].any (fun k => containsSub k t) then
    str "multiple_choice"
  else if [str "true or false", str "true/false", str "t/f"].any
      (fun k => containsSub k tl) then str "true_false"
  else str "multiple_choice"

/-- Question numbers parsed from the accepted questions' texts
(Python builds a `set`; only membership is consulted). -/
def found_question_numbers (found : List Question) : List Nat :=
  found.filterMap (fun q => leading_number (stripStr q.question_text))

def recovered_question (d : DetQuestion) : Question :=
  { question_id := some (str "recovery_q_" ++ natStr d.number),
    question_text := d.text,
    question_type := some (determine_question_type_simple d.text),
    topic := some (str "Cybersecurity"),
    difficulty := some (str "medium"),
    confidence_score := some (mkRat 4 5),
    source_chunk := some .recoveryTag,
    detection_method := some (str "deterministic_recovery"),
    question_number := some d.number }

/-- `_recover_missing_questions` (the `text` argument of the source is
unused by its body). -/
def recover_missing_questions (det : List DetQuestion) (found : List Question) :
    List Question :=
  let nums := found_question_numbers found
  (det.filter (fun d =>
    !nums.contains d.number && decide ((stripStr d.text).length > 20))).map
    recovered_question

/-! ### `_call_openai_api` -/

/-- A per-chunk LLM result (only the `questions` list is consulted by the
merge; `chunk_summary` is never read). -/
structure ChunkResult where
  questions : List Question
deriving DecidableEq

/-- Outcome of one API attempt: an exception, or a response whose content
parses to `parsed` by `json.loads` (`none` = `JSONDecodeError`) with
`salvaged` the result of the brace-span salvage parse. -/
inductive ApiAttempt where
  | exn
  | response (parsed : Option ChunkResult) (salvaged : Option ChunkResult)
deriving DecidableEq

/-- The retry loop of `_call_openai_api` (`max_retries = 3`); `fuel` is
the number of attempts left including the current one, so `fuel = 1` is
the last attempt. -/
def call_openai_api_aux (f : Nat → ApiAttempt) : Nat → Nat → Option ChunkResult
  | _, 0 => none
  | attempt, fuel + 1 =>
    match f attempt with
    | .exn => if fuel = 0 then none else call_openai_api_aux f (attempt + 1) fuel
    | .response parsed salvaged =>
      match parsed with
      | some r => some r
      | none =>
        match salvaged with
        | some r => some r
        | none => if fuel = 0 then none else call_openai_api_aux f (attempt + 1) fuel

def call_openai_api (f : Nat → ApiAttempt) : Option ChunkResult :=
  call_openai_api_aux f 0 3

/-! ### PHASE 3-4 of `analyze_text_with_llm`: validation, relabelling,
recovery -/

/-- The relabelling applied to an accepted question in PHASE 3
(`question_id` default when the key is absent is `len(all_questions)`
at that moment). -/
def relabelQuestion (i : Nat) (accLen : Nat) (q : Question) : Question :=
  { q with
    question_id := some (str "chunk_" ++ natStr (i + 1) ++ str "_" ++
      (q.question_id.getD (natStr accLen))),
    source_chunk := some (.chunkIdx (i + 1)),
    detection_method := some (str "llm") }

def processQuestionsAux (i : Nat) : List Question → List Question → List Question
  | acc, [] => acc
  | acc, q :: qs =>
    if validate_question q then
      processQuestionsAux i (acc ++ [relabelQuestion i acc.length q]) qs
    else processQuestionsAux i acc qs

def process_chunk_results_aux : Nat → List Question → List (Option ChunkResult) → List Question
  | _, acc, [] => acc
  | i, acc, none :: rest => process_chunk_results_aux (i + 1) acc rest
  | i, acc, some r :: rest =>
    process_chunk_results_aux (i + 1) (processQuestionsAux i acc r.questions) rest

/-- PHASE 3: accepted, relabelled questions in chunk order. -/
def process_chunk_results (results : List (Option ChunkResult)) : List Question :=
  process_chunk_results_aux 0 [] results

/-- PHASES 3-4: merge plus the recovery trigger (`if len(all_questions) < 10`). -/
def reconcile_questions (results : List (Option ChunkResult)) (det : List DetQuestion) :
    List Question :=
  let allQ := process_chunk_results results
  if allQ.length < 10 then allQ ++ recover_missing_questions det allQ else allQ

/-- The questions list of `analyze_text_with_llm`'s final result, with the
gathered per-chunk API outcomes supplied as `results`. -/
def analyze_text_with_llm (text : Str) (results : List (Option ChunkResult)) :
    List Question :=
  reconcile_questions results (extract_numbered_questions_deterministic text)

/-- Count of questions carrying the deterministic-recovery detection tag. -/
def recoveryTaggedCount (qs : List Question) : Nat :=
  qs.countP (fun q => q.detection_method == some (str "deterministic_recovery"))

end LLMService

/-! ## `backend/app/api/analysis.py` -/

namespace AnalysisAPI

/-- Python exceptions relevant to the endpoint: `fastapi.HTTPException`
(a subclass of `Exception`) and anything else. -/
inductive PyExc where
  | httpExc (status : Nat) (detail : Str)
  | otherExc (msg : Str)
deriving DecidableEq

/-- `str(e)`: Starlette's `HTTPException.__str__` is
`f"{status_code}: {detail}"`. -/
def strOfExc : PyExc → Str
  | .httpExc st d => natStr st ++ str ": " ++ d
  | .otherExc m => m

inductive EndpointResult where
  | ok (questions_found topics_identified : Nat)
  | httpError (status : Nat) (detail : Str)
deriving DecidableEq

/-- The `try` block of `analyze_document`: extraction, the
falsy-extracted-text check raising `HTTPException(400)`, then analysis
(modelled by its outcome: counts of questions/topics, or an exception). -/
def analyze_document_try (extraction : Except PyExc (Option Str))
    (analysis : Except PyExc (Nat × Nat)) : Except PyExc (Nat × Nat) :=
  match extraction with
  | .error e => .error e
  | .ok ext =>
    if ext.getD [] = [] then
      .error (.httpExc 400 (str "No text could be extracted from document"))
    else analysis

/-- `analyze_document`: the whole `try` body is wrapped in
`except Exception as e: raise HTTPException(500, f"Analysis failed: {e}")`,
which also catches the `HTTPException(400)` raised inside the `try`. -/
def analyze_document (extraction : Except PyExc (Option Str))
    (analysis : Except PyExc (Nat × Nat)) : EndpointResult :=
  match analyze_document_try extraction analysis with
  | .ok (q, t) => .ok q t
  | .error e => .httpError 500 (str "Analysis failed: " ++ strOfExc e)

end AnalysisAPI

/-! ## Concrete inputs used by witnesses and counterexamples -/

/-- Atomic sentence units of the Hebrew chunker: the sentences of each
paragraph (the only segments `_chunk_hebrew_text` may emit oversized). -/
def hebrewAtomicUnits (text : Str) : List Str :=
  (splitOnSub (str "\n\n") text).flatMap HebrewTranslator.split_by_sentences

/-- Three numbered exam-like lines of lengths 20, 20 and 21. -/
def exLine1 : Str := str "1. aaaaaaaaaaaaaaaaa"
def exLine2 : Str := str "2. bbbbbbbbbbbbbbbbb"
def exLine3 : Str := str "3. cccccccccccccccccc"
def exText3 : Str := exLine1 ++ ['\n'] ++ exLine2 ++ ['\n'] ++ exLine3

/-- An English question text that survives segmentation. -/
def exQuestionText : Str := str "1. What is encryption used for in network security today?"

/-- An LLM oracle that always answers with a fixed English sentence. -/
def orHello : Nat → Nat → Except Unit Str :=
  fun _ _ => .ok (str "Hello world from the test")

/-- A deterministic-baseline record whose captured text is 5 characters
long (below the 20-character recovery threshold). -/
def detShort : LLMService.DetQuestion := LLMService.mkDetQuestion 1 (str "1. hi") 1

/-- A candidate question that passes `_validate_question`. -/
def goodQ : LLMService.Question :=
  { question_text := str "1. What is a firewall used for? A) filtering B) routing C) music D) art",
    question_id := some (str "q_1"), question_type := some (str "multiple_choice"),
    topic := some (str "Cybersecurity"), confidence_score := some (mkRat 19 20) }

/-! # Theorems -/

/-! ## Generic facts about the string utilities -/

theorem dropWhile_head_false {p : Char → Bool} :
    ∀ {s : Str} {c : Char} {t : Str}, s.dropWhile p = c :: t → p c = false := by
  intro s
  induction s with
  | nil => intro c t h; simp at h
  | cons a s ih =>
    intro c t h
    rw [List.dropWhile_cons] at h
    split at h
    · exact ih h
    · rename_i ha
      cases h
      exact Bool.eq_false_iff.mpr ha

theorem dropWhile_eq_self_of_head {p : Char → Bool} {s : Str}
    (h : ∀ c, s.head? = some c → p c = false) : s.dropWhile p = s := by
  cases s with
  | nil => rfl
  | cons a t => rw [List.dropWhile_cons, h a rfl]; simp

theorem mem_stripStr {c : Char} {s : Str} (h : c ∈ stripStr s) : c ∈ s := by
  unfold stripStr at h
  rw [List.mem_reverse] at h
  have h1 := List.Sublist.mem h (List.dropWhile_sublist _)
  rw [List.mem_reverse] at h1
  exact List.Sublist.mem h1 (List.dropWhile_sublist _)

theorem stripStr_length_le (s : Str) : (stripStr s).length ≤ s.length := by
  unfold stripStr
  calc ((s.dropWhile isPySpace).reverse.dropWhile isPySpace).reverse.length
      = ((s.dropWhile isPySpace).reverse.dropWhile isPySpace).length := List.length_reverse _
    _ ≤ (s.dropWhile isPySpace).reverse.length := (List.dropWhile_sublist _).length_le
    _ = (s.dropWhile isPySpace).length := List.length_reverse _
    _ ≤ s.length := (List.dropWhile_sublist _).length_le

theorem stripStr_eq_self {s : Str}
    (h1 : ∀ c, s.head? = some c → isPySpace c = false)
    (h2 : ∀ c, s.getLast? = some c → isPySpace c = false) : stripStr s = s := by
  unfold stripStr
  rw [dropWhile_eq_self_of_head h1]
  rw [dropWhile_eq_self_of_head (by intro c hc; exact h2 c ((List.head?_reverse s) ▸ hc))]
  exact List.reverse_reverse s

theorem getLast?_of_suffix {l₁ l₂ : Str} (h : l₁ <:+ l₂) (hne : l₁ ≠ []) :
    l₂.getLast? = l₁.getLast? := by
  obtain ⟨t, rfl⟩ := h
  rw [List.getLast?_append]
  cases hl : l₁.getLast? with
  | none => exact absurd (List.getLast?_eq_none_iff.mp hl) hne
  | some c => simp

theorem stripStr_head_false {s : Str} {c : Char} (h : (stripStr s).head? = some c) :
    isPySpace c = false := by
  unfold stripStr at h
  rw [List.head?_reverse] at h
  rcases hv : (s.dropWhile isPySpace).reverse.dropWhile isPySpace with _ | ⟨a, t⟩
  · rw [hv] at h; simp at h
  · rw [hv] at h
    have hne : (a :: t) ≠ [] := by simp
    have := getLast?_of_suffix (hv ▸ List.dropWhile_suffix (l := (s.dropWhile isPySpace).reverse) isPySpace) hne
    rw [← this, List.getLast?_reverse] at h
    rcases hu : s.dropWhile isPySpace with _ | ⟨b, u⟩
    · rw [hu] at h; simp at h
    · rw [hu] at h
      simp only [List.head?_cons, Option.some.injEq] at h
      exact h ▸ dropWhile_head_false hu

theorem stripStr_getLast_false {s : Str} {c : Char} (h : (stripStr s).getLast? = some c) :
    isPySpace c = false := by
  unfold stripStr at h
  rw [List.getLast?_reverse] at h
  rcases hv : (s.dropWhile isPySpace).reverse.dropWhile isPySpace with _ | ⟨a, t⟩
  · rw [hv] at h; simp at h
  · rw [hv] at h
    simp only [List.head?_cons, Option.some.injEq] at h
    exact h ▸ dropWhile_head_false hv

theorem stripStr_idem (s : Str) : stripStr (stripStr s) = stripStr s :=
  stripStr_eq_self (fun _ hc => stripStr_head_false hc) (fun _ hc => stripStr_getLast_false hc)

theorem mem_collapseWs {c : Char} : ∀ {s : Str}, c ∈ collapseWs s → c = ' ' ∨ c ∈ s := by
  intro s
  induction s with
  | nil => intro h; simp [collapseWs] at h
  | cons a t ih =>
    intro h
    cases t with
    | nil =>
      simp only [collapseWs] at h
      split at h
      · simp at h; exact Or.inl h
      · simp at h; exact Or.inr (by simp [h])
    | cons b u =>
      simp only [collapseWs] at h
      split at h
      · split at h
        · rcases ih h with h' | h'
          · exact Or.inl h'
          · exact Or.inr (List.mem_cons_of_mem _ h')
        · rcases List.mem_cons.mp h with h' | h'
          · exact Or.inl h'
          · rcases ih h' with h'' | h''
            · exact Or.inl h''
            · exact Or.inr (List.mem_cons_of_mem _ h'')
      · rcases List.mem_cons.mp h with h' | h'
        · exact Or.inr (by simp [h'])
        · rcases ih h' with h'' | h''
          · exact Or.inl h''
          · exact Or.inr (List.mem_cons_of_mem _ h'')

/-! ## Facts about the segment-selection stage of `_chunk_text_intelligently` -/

theorem mem_of_mem_ite {α : Type} {x : α} {c : Prop} [Decidable c] {A B : List α}
    (h : x ∈ if c then A else B) : x ∈ A ∨ x ∈ B := by
  split at h
  · exact Or.inl h
  · exact Or.inr h

theorem pattern_segments_facts {text : Str} {core : RE} {s : Str}
    (h : s ∈ LLMService.pattern_segments text core) : stripStr s = s ∧ s ≠ [] := by
  unfold LLMService.pattern_segments at h
  obtain ⟨x, -, heq⟩ := List.mem_filterMap.mp h
  dsimp only at heq
  split at heq
  · rename_i hcond
    cases heq
    exact ⟨stripStr_idem x, hcond.1⟩
  · exact absurd heq (by simp)

theorem best_pattern_segments_facts {text : Str} :
    ∀ s ∈ LLMService.best_pattern_segments text, stripStr s = s ∧ s ≠ [] := by
  unfold LLMService.best_pattern_segments
  generalize LLMService.questionPatternCores = cores
  have base : ∀ s ∈ ([] : List Str), stripStr s = s ∧ s ≠ [] := by simp
  revert base
  generalize ([] : List Str) = acc
  induction cores generalizing acc with
  | nil => intro base; simpa using base
  | cons core rest ih =>
    intro base
    simp only [List.foldl_cons]
    apply ih
    split
    · exact fun s hs => pattern_segments_facts hs
    · exact base

theorem fallbackNumberedAux_stripped {lines : List Str} :
    ∀ {cur : Str} {s : Str}, s ∈ LLMService.fallbackNumberedAux lines cur →
      ∃ y, s = stripStr y := by
  induction lines with
  | nil =>
    intro cur s h
    unfold LLMService.fallbackNumberedAux at h
    split at h
    · simp at h; exact ⟨cur, h⟩
    · simp at h
  | cons l rest ih =>
    intro cur s h
    unfold LLMService.fallbackNumberedAux at h
    dsimp only at h
    split at h
    · rcases List.mem_append.mp h with h' | h'
      · split at h'
        · simp at h'; exact ⟨cur, h'⟩
        · simp at h'
      · exact ih h'
    · split at h
      · exact ih h
      · exact ih h

theorem fallback_numbered_segments_facts {text : Str} :
    ∀ s ∈ LLMService.fallback_numbered_segments text, stripStr s = s ∧ s ≠ [] := by
  intro s h
  unfold LLMService.fallback_numbered_segments at h
  obtain ⟨h1, h2⟩ := List.mem_filter.mp h
  obtain ⟨y, rfl⟩ := fallbackNumberedAux_stripped h1
  refine ⟨stripStr_idem y, ?_⟩
  intro hnil
  rw [hnil] at h2
  simp [stripStr] at h2

theorem final_fallback_segments_facts {text : Str} :
    ∀ s ∈ LLMService.final_fallback_segments text, stripStr s = s ∧ s ≠ [] := by
  intro s h
  unfold LLMService.final_fallback_segments at h
  obtain ⟨h1, -⟩ := List.mem_filter.mp h
  obtain ⟨x, -, heq⟩ := List.mem_filterMap.mp h1
  dsimp only at heq
  split at heq
  · rename_i hcond
    cases heq
    exact ⟨stripStr_idem x, hcond⟩
  · exact absurd heq (by simp)

/-- Every selected segment is already stripped and non-empty. -/
theorem select_segments_facts {text : Str} :
    ∀ s ∈ LLMService.select_segments text, stripStr s = s ∧ s ≠ [] := by
  intro s h
  unfold LLMService.select_segments at h
  dsimp only at h
  rcases mem_of_mem_ite h with h | h
  · exact final_fallback_segments_facts _ h
  · rcases mem_of_mem_ite h with h | h
    · rcases mem_of_mem_ite h with h | h
      · exact fallback_numbered_segments_facts _ h
      · exact best_pattern_segments_facts _ h
    · exact best_pattern_segments_facts _ h

/-! ## Non-emptiness of the assembled chunk list -/

theorem assemble_chunks_ne_nil_aux {N : Nat} :
    ∀ (segs : List Str) (cur : Str), cur ≠ [] → (∀ s ∈ segs, s ≠ []) →
      LLMService.assemble_chunks N segs cur ≠ [] := by
  intro segs
  induction segs with
  | nil =>
    intro cur hcur _
    unfold LLMService.assemble_chunks
    simp [hcur]
  | cons seg rest ih =>
    intro cur hcur hs
    unfold LLMService.assemble_chunks
    by_cases hov : cur.length + seg.length > N
    · rw [if_pos hov]
      intro hcontra
      rcases List.append_eq_nil.mp hcontra with ⟨-, h2⟩
      exact ih seg (hs seg (by simp)) (fun x hx => hs x (by simp [hx])) h2
    · rw [if_neg hov, if_neg hcur]
      exact ih _ (by simp [str]) (fun x hx => hs x (by simp [hx]))

theorem assemble_chunks_ne_nil {N : Nat} {segs : List Str}
    (hne : segs ≠ []) (hs : ∀ s ∈ segs, s ≠ []) :
    LLMService.assemble_chunks N segs [] ≠ [] := by
  cases segs with
  | nil => exact absurd rfl hne
  | cons seg rest =>
    unfold LLMService.assemble_chunks
    by_cases hov : ([] : Str).length + seg.length > N
    · rw [if_pos hov]
      intro hcontra
      rcases List.append_eq_nil.mp hcontra with ⟨-, h2⟩
      exact assemble_chunks_ne_nil_aux rest seg (hs seg (by simp))
        (fun x hx => hs x (by simp [hx])) h2
    · rw [if_neg hov, if_pos rfl]
      exact assemble_chunks_ne_nil_aux rest seg (hs seg (by simp))
        (fun x hx => hs x (by simp [hx]))

theorem sliceAux_ne_nil {N : Nat} {fuel : Nat} {s : Str} (hf : 0 < fuel) (hs : s ≠ []) :
    sliceAux N fuel s ≠ [] := by
  cases fuel with
  | zero => exact absurd hf (by simp)
  | succ f =>
    cases s with
    | nil => exact absurd rfl hs
    | cons c t => unfold sliceAux; simp

theorem slice_chunks_ne_nil {N : Nat} {s : Str} (hN : 0 < N) (hs : s ≠ []) :
    slice_chunks N s ≠ [] := by
  unfold slice_chunks
  rw [if_neg (by omega)]
  exact sliceAux_ne_nil (by cases s with | nil => exact absurd rfl hs | cons c t => simp) hs

/-! ## Claim C2 -/

/-- Claim C2, corrected.  The chunker never raises (it is a total
function), and it returns at least one chunk whenever the segment
selection produces at least one segment; but for inputs on which no
strategy selects any segment (the empty text, or text reduced to
nothing by preprocessing/filtering) it returns the empty sequence, not
a single whole-text chunk. -/
theorem chunker_nonempty_of_segments (N : Nat) (text : Str) (hN : 0 < N)
    (hseg : LLMService.select_segments (LLMService.preprocess_text text) ≠ []) :
    LLMService.chunk_text_intelligently N text ≠ [] := by
  unfold LLMService.chunk_text_intelligently
  dsimp only
  split
  · rename_i hcond
    apply slice_chunks_ne_nil hN
    intro h
    rw [h] at hcond
    exact absurd hcond.2 (by simp)
  · exact assemble_chunks_ne_nil hseg (fun s hs => (select_segments_facts s hs).2)

/-- Claim C2, witness: an English question text yields a selected segment
and hence at least one chunk. -/
theorem chunker_nonempty_of_segments_witness :
    LLMService.chunk_text_intelligently 3000 exQuestionText ≠ [] :=
  chunker_nonempty_of_segments 3000 exQuestionText (by decide) (by decide)

/-- Claim C2, counterexample: on the empty input the chunker returns the
empty sequence, contradicting "always returns at least one chunk". -/
theorem chunker_empty_input_counterexample :
    LLMService.chunk_text_intelligently 3000 (str "") = [] := by decide

/-! ## Claim C4 (counterexample) -/

/-- Claim C4, counterexample: for the one-character input "x" the chunker
returns no chunks at all, so concatenating the chunks (there is no
inserted separator to ignore) yields the empty string, not the original
content. -/
theorem chunker_no_reconstruction_counterexample :
    joinAll (LLMService.chunk_text_intelligently 3000 (str "x")) ≠ str "x" := by decide

/-! ## Claim C3 (counterexample) -/

/-- Claim C3, counterexample: with configured size 40 and three detected
question units of lengths 20, 20 and 21, the chunker emits a chunk of
length 42 (two units joined by the uncounted two-character separator),
which exceeds the bound yet is not a single atomic question unit. -/
theorem chunk_size_counterexample :
    (exLine1 ++ str "\n\n" ++ exLine2) ∈ LLMService.chunk_text_intelligently 40 exText3 ∧
    40 < (exLine1 ++ str "\n\n" ++ exLine2).length ∧
    (exLine1 ++ str "\n\n" ++ exLine2) ∉
      LLMService.select_segments (LLMService.preprocess_text exText3) := by decide

/-! ## Claim C10 -/

/-- Claim C10: an input of length at most the configured maximum chunk
size (3000) is returned verbatim as the single chunk by
`_chunk_hebrew_text`. -/
theorem short_text_single_chunk (text : Str)
    (h : text.length ≤ HebrewTranslator.hebrewMaxChunkSize) :
    HebrewTranslator.chunk_hebrew_text HebrewTranslator.hebrewMaxChunkSize text = [text] := by
  unfold HebrewTranslator.chunk_hebrew_text
  rw [if_pos h]

/-- Claim C10, witness. -/
theorem short_text_single_chunk_witness :
    HebrewTranslator.chunk_hebrew_text HebrewTranslator.hebrewMaxChunkSize (str "שלום") =
      [str "שלום"] :=
  short_text_single_chunk (str "שלום") (by decide)

/-! ## Claim C8 -/

/-- Claim C8: at the document-analysis boundary, empty extraction and an
arbitrary analysis exception both surface as HTTP 500 — the
`HTTPException(400)` raised for empty extraction is swallowed by the
blanket `except Exception` and re-raised as 500, so the two failure
modes do *not* produce distinct statuses. -/
theorem analysis_api_both_failures_500
    (analysis : Except AnalysisAPI.PyExc (Nat × Nat)) (msg : Str) :
    AnalysisAPI.analyze_document (.ok (some [])) analysis =
      .httpError 500 (str "Analysis failed: 400: No text could be extracted from document") ∧
    AnalysisAPI.analyze_document (.ok (some (str "text"))) (.error (.otherExc msg)) =
      .httpError 500 (str "Analysis failed: " ++ msg) := by
  constructor
  · rfl
  · rfl

/-! ## Claim C9 -/

/-- Claim C9, amended: for input text containing no character of the
detector's ranges (`_is_hebrew_text`: Hebrew, Arabic, Arabic Supplement,
Arabic Extended-A, Hebrew presentation forms), translation returns the
original text unchanged with success, the "No Hebrew text detected in
input" message, and issues zero LLM calls. -/
theorem translate_no_detect_returns_original (text : Str)
    (oracle : Nat → Nat → Except Unit Str) (nfkc : Str → Str)
    (h : ∀ c ∈ text, HebrewTranslator.isHebrewDetectChar c = false) :
    HebrewTranslator.translate_hebrew_to_english text oracle nfkc =
      ({ translated_text := text, original_chunks := 1, success := true, has_hebrew := false,
         message := some (str "No Hebrew text detected in input") }, 0) := by
  have hb : HebrewTranslator.is_hebrew_text text = false := by
    unfold HebrewTranslator.is_hebrew_text
    exact List.any_eq_false.mpr (fun c hc => by simp [h c hc])
  unfold HebrewTranslator.translate_hebrew_to_english
  rw [hb]
  rfl

/-- Claim C9, witness. -/
theorem translate_no_detect_returns_original_witness :
    HebrewTranslator.translate_hebrew_to_english (str "hello there") orHello id =
      ({ translated_text := str "hello there", original_chunks := 1, success := true,
         has_hebrew := false,
         message := some (str "No Hebrew text detected in input") }, 0) :=
  translate_no_detect_returns_original (str "hello there") orHello id (by decide)

/-- Claim C9, counterexample: an input consisting of one Arabic letter
contains no Hebrew-script character, yet the translation path issues an
LLM call and returns the LLM's translation instead of the original
text. -/
theorem translate_no_hebrew_counterexample :
    (∀ c ∈ ['ب'], HebrewTranslator.hebrewScriptChar c = false) ∧
    (HebrewTranslator.translate_hebrew_to_english ['ب'] orHello id).2 ≠ 0 ∧
    (HebrewTranslator.translate_hebrew_to_english ['ب'] orHello id).1.translated_text ≠
      ['ب'] := by decide

/-! ## Facts about PHASE 3 (validation/relabelling) and PHASE 4 (recovery) -/

theorem processQuestionsAux_mem {i : Nat} :
    ∀ {qs acc : List LLMService.Question} {q : LLMService.Question},
      q ∈ LLMService.processQuestionsAux i acc qs →
      q ∈ acc ∨ q.detection_method = some (str "llm") := by
  intro qs
  induction qs with
  | nil => intro acc q h; exact Or.inl h
  | cons p rest ih =>
    intro acc q h
    unfold LLMService.processQuestionsAux at h
    split at h
    · rcases ih h with h' | h'
      · rcases List.mem_append.mp h' with h'' | h''
        · exact Or.inl h''
        · simp at h''
          exact Or.inr (by rw [h'']; rfl)
      · exact Or.inr h'
    · exact ih h

theorem process_chunk_results_aux_mem :
    ∀ {rs : List (Option LLMService.ChunkResult)} {i : Nat}
      {acc : List LLMService.Question} {q : LLMService.Question},
      q ∈ LLMService.process_chunk_results_aux i acc rs →
      q ∈ acc ∨ q.detection_method = some (str "llm") := by
  intro rs
  induction rs with
  | nil => intro i acc q h; exact Or.inl h
  | cons hd rest ih =>
    intro i acc q h
    cases hd with
    | none => exact ih h
    | some r =>
      rcases ih h with h' | h'
      · exact processQuestionsAux_mem h'
      · exact Or.inr h'

/-- Every PHASE-3 accepted question carries the `llm` detection tag. -/
theorem process_chunk_results_tag {results : List (Option LLMService.ChunkResult)}
    {q : LLMService.Question} (h : q ∈ LLMService.process_chunk_results results) :
    q.detection_method = some (str "llm") := by
  rcases process_chunk_results_aux_mem h with h' | h'
  · simp at h'
  · exact h'

theorem recoveryTaggedCount_append (a b : List LLMService.Question) :
    LLMService.recoveryTaggedCount (a ++ b) =
      LLMService.recoveryTaggedCount a + LLMService.recoveryTaggedCount b := by
  unfold LLMService.recoveryTaggedCount
  exact List.countP_append _ a b

theorem recoveryTaggedCount_process (results : List (Option LLMService.ChunkResult)) :
    LLMService.recoveryTaggedCount (LLMService.process_chunk_results results) = 0 := by
  unfold LLMService.recoveryTaggedCount
  rw [List.countP_eq_zero]
  intro q hq
  rw [process_chunk_results_tag hq]
  decide

theorem recoveryTaggedCount_recovered (det : List LLMService.DetQuestion)
    (found : List LLMService.Question) :
    LLMService.recoveryTaggedCount (LLMService.recover_missing_questions det found) =
      (LLMService.recover_missing_questions det found).length := by
  unfold LLMService.recoveryTaggedCount
  rw [List.countP_eq_length]
  intro q hq
  unfold LLMService.recover_missing_questions at hq
  obtain ⟨d, -, rfl⟩ := List.mem_map.mp hq
  rfl

theorem recover_missing_questions_length (det : List LLMService.DetQuestion)
    (found : List LLMService.Question) :
    (LLMService.recover_missing_questions det found).length =
      (det.filter (fun d =>
        !(LLMService.found_question_numbers found).contains d.number &&
        decide ((stripStr d.text).length > 20))).length := by
  unfold LLMService.recover_missing_questions
  exact List.length_map _ _

/-! ## Claim C6 -/

/-- Claim C6, amended: the number of questions carrying the
deterministic-recovery tag in the reconciled result equals the number of
deterministic-baseline records whose number is absent from the accepted
questions' leading numerals *and* whose captured text is longer than 20
characters — and only when fewer than 10 questions were accepted
(otherwise recovery is skipped entirely and the count is zero). -/
theorem recovery_tag_count (results : List (Option LLMService.ChunkResult))
    (det : List LLMService.DetQuestion) :
    LLMService.recoveryTaggedCount (LLMService.reconcile_questions results det) =
      if (LLMService.process_chunk_results results).length < 10 then
        (det.filter (fun d =>
          !(LLMService.found_question_numbers
              (LLMService.process_chunk_results results)).contains d.number &&
          decide ((stripStr d.text).length > 20))).length
      else 0 := by
  unfold LLMService.reconcile_questions
  dsimp only
  split
  · rw [recoveryTaggedCount_append, recoveryTaggedCount_process,
      recoveryTaggedCount_recovered, recover_missing_questions_length]
    simp
  · exact recoveryTaggedCount_process results

/-- Claim C6, counterexample: a baseline record numbered 1 with 5-character
text is missing from the (empty) accepted set, so the claim as stated
predicts one recovered question; the code recovers none because of the
20-character minimum-length check. -/
theorem recovery_tag_count_counterexample :
    LLMService.recoveryTaggedCount (LLMService.reconcile_questions [none] [detShort]) ≠
      ([detShort].filter (fun d =>
        !(LLMService.found_question_numbers
            (LLMService.process_chunk_results [none])).contains d.number)).length := by
  decide

/-! ## Facts for claim C7 -/

theorem call_openai_api_none (f : Nat → LLMService.ApiAttempt)
    (hf : ∀ a, f a = .exn ∨ f a = .response none none) :
    LLMService.call_openai_api f = none := by
  have h0 := hf 0
  have h1 := hf 1
  have h2 := hf 2
  rcases h0 with h0 | h0 <;> rcases h1 with h1 | h1 <;> rcases h2 with h2 | h2 <;>
    simp [LLMService.call_openai_api, LLMService.call_openai_api_aux, h0, h1, h2]

theorem processQuestionsAux_acc_prefix {i : Nat} :
    ∀ (qs acc : List LLMService.Question),
      ∃ L, LLMService.processQuestionsAux i acc qs = acc ++ L := by
  intro qs
  induction qs with
  | nil => intro acc; exact ⟨[], by simp [LLMService.processQuestionsAux]⟩
  | cons p rest ih =>
    intro acc
    unfold LLMService.processQuestionsAux
    split
    · obtain ⟨L, hL⟩ := ih (acc ++ [LLMService.relabelQuestion i acc.length p])
      exact ⟨[LLMService.relabelQuestion i acc.length p] ++ L, by rw [hL, List.append_assoc]⟩
    · exact ih acc

theorem process_chunk_results_aux_acc_prefix :
    ∀ (rs : List (Option LLMService.ChunkResult)) (i : Nat)
      (acc : List LLMService.Question),
      ∃ L, LLMService.process_chunk_results_aux i acc rs = acc ++ L := by
  intro rs
  induction rs with
  | nil => intro i acc; exact ⟨[], by simp [LLMService.process_chunk_results_aux]⟩
  | cons hd rest ih =>
    intro i acc
    cases hd with
    | none => exact ih (i + 1) acc
    | some r =>
      obtain ⟨L1, hL1⟩ := processQuestionsAux_acc_prefix r.questions acc
      obtain ⟨L2, hL2⟩ := ih (i + 1) (LLMService.processQuestionsAux i acc r.questions)
      exact ⟨L1 ++ L2, by
        show LLMService.process_chunk_results_aux (i + 1)
          (LLMService.processQuestionsAux i acc r.questions) rest = acc ++ (L1 ++ L2)
        rw [hL2, hL1, List.append_assoc]⟩

theorem processQuestionsAux_mem_of {i : Nat} {q : LLMService.Question}
    (hv : LLMService.validate_question q = true) :
    ∀ {qs : List LLMService.Question}, q ∈ qs → ∀ acc,
      ∃ n, LLMService.relabelQuestion i n q ∈ LLMService.processQuestionsAux i acc qs := by
  intro qs
  induction qs with
  | nil => intro h; simp at h
  | cons p rest ih =>
    intro hq acc
    rcases List.mem_cons.mp hq with rfl | hmem
    · unfold LLMService.processQuestionsAux
      rw [if_pos hv]
      obtain ⟨L, hL⟩ := processQuestionsAux_acc_prefix rest
        (acc ++ [LLMService.relabelQuestion i acc.length q])
      refine ⟨acc.length, ?_⟩
      rw [hL]
      exact List.mem_append_left _ (List.mem_append_right _ (by simp))
    · unfold LLMService.processQuestionsAux
      split
      · exact ih hmem _
      · exact ih hmem acc

theorem process_chunk_results_mem
    {results : List (Option LLMService.ChunkResult)} {i : Nat}
    {r : LLMService.ChunkResult} {q : LLMService.Question}
    (hr : results.get? i = some (some r)) (hq : q ∈ r.questions)
    (hv : LLMService.validate_question q = true) :
    ∃ n, LLMService.relabelQuestion i n q ∈ LLMService.process_chunk_results results := by
  suffices h : ∀ (rs : List (Option LLMService.ChunkResult)) (j : Nat)
      (acc : List LLMService.Question) (i : Nat),
      rs.get? i = some (some r) →
      ∃ n, LLMService.relabelQuestion (j + i) n q ∈
        LLMService.process_chunk_results_aux j acc rs by
    have := h results 0 [] i hr
    simpa using this
  intro rs
  induction rs with
  | nil => intro j acc i h; simp at h
  | cons hd rest ih =>
    intro j acc i h
    cases i with
    | zero =>
      simp only [List.get?_cons_zero, Option.some.injEq] at h
      subst h
      obtain ⟨n, hn⟩ := processQuestionsAux_mem_of hv hq acc (i := j)
      obtain ⟨L, hL⟩ := process_chunk_results_aux_acc_prefix rest (j + 1)
        (LLMService.processQuestionsAux j acc r.questions)
      refine ⟨n, ?_⟩
      show LLMService.relabelQuestion (j + 0) n q ∈
        LLMService.process_chunk_results_aux (j + 1)
          (LLMService.processQuestionsAux j acc r.questions) rest
      rw [Nat.add_zero, hL]
      exact List.mem_append_left _ hn
    | succ k =>
      simp only [List.get?_cons_succ] at h
      cases hd with
      | none =>
        obtain ⟨n, hn⟩ := ih (j + 1) acc k h
        exact ⟨n, by rw [show j + (k + 1) = (j + 1) + k by omega]; exact hn⟩
      | some r' =>
        obtain ⟨n, hn⟩ := ih (j + 1) (LLMService.processQuestionsAux j acc r'.questions) k h
        exact ⟨n, by rw [show j + (k + 1) = (j + 1) + k by omega]; exact hn⟩

/-! ## Claim C7 -/

/-- Claim C7: a chunk whose API call fails on every retry yields the
failure sentinel `None` instead of an exception, and the questions of
any successfully processed chunk that pass validation still appear
(relabelled) in the reconciled result — a failed chunk is merely
excluded, never failing the whole request. -/
theorem per_chunk_failure_isolated (f : Nat → LLMService.ApiAttempt)
    (hf : ∀ a, f a = .exn ∨ f a = .response none none)
    (results : List (Option LLMService.ChunkResult)) (det : List LLMService.DetQuestion)
    (i : Nat) (r : LLMService.ChunkResult) (q : LLMService.Question)
    (hr : results.get? i = some (some r)) (hq : q ∈ r.questions)
    (hv : LLMService.validate_question q = true) :
    LLMService.call_openai_api f = none ∧
    ∃ n, LLMService.relabelQuestion i n q ∈ LLMService.reconcile_questions results det := by
  refine ⟨call_openai_api_none f hf, ?_⟩
  obtain ⟨n, hn⟩ := process_chunk_results_mem hr hq hv
  refine ⟨n, ?_⟩
  unfold LLMService.reconcile_questions
  dsimp only
  split
  · exact List.mem_append_left _ hn
  · exact hn

/-- Claim C7, witness: one all-failing chunk next to one successful chunk
containing a valid question; the question survives into the merge. -/
theorem per_chunk_failure_isolated_witness :
    LLMService.call_openai_api (fun _ => .exn) = none ∧
    ∃ n, LLMService.relabelQuestion 0 n goodQ ∈
      LLMService.reconcile_questions [some ⟨[goodQ]⟩, none] [] :=
  per_chunk_failure_isolated (fun _ => .exn) (fun _ => Or.inl rfl)
    [some ⟨[goodQ]⟩, none] [] 0 ⟨[goodQ]⟩ goodQ rfl (by simp) (by decide)

/-! ## Size bounds of the two chunkers (claim C3) -/

theorem sliceAux_length_le {N fuel : Nat} :
    ∀ {s c : Str}, c ∈ sliceAux N fuel s → c.length ≤ N := by
  induction fuel with
  | zero => intro s c h; simp [sliceAux] at h
  | succ f ih =>
    intro s c h
    cases s with
    | nil => simp [sliceAux] at h
    | cons a t =>
      unfold sliceAux at h
      rcases List.mem_cons.mp h with rfl | h'
      · rw [List.length_take]
        exact min_le_left _ _
      · exact ih h'

theorem slice_chunks_length_le {N : Nat} {s c : Str} (h : c ∈ slice_chunks N s) :
    c.length ≤ N := by
  unfold slice_chunks at h
  split at h
  · simp at h
  · exact sliceAux_length_le h

theorem assemble_chunks_bound {N : Nat} {S : List Str} (hS : ∀ s ∈ S, stripStr s = s) :
    ∀ (segs : List Str) (cur : Str), (∀ s ∈ segs, s ∈ S) →
      (cur = [] ∨ cur ∈ S ∨ cur.length ≤ N + 2) →
      ∀ c ∈ LLMService.assemble_chunks N segs cur, c.length ≤ N + 2 ∨ c ∈ S := by
  intro segs
  induction segs with
  | nil =>
    intro cur hsub hcur c hc
    unfold LLMService.assemble_chunks at hc
    split at hc
    · rename_i hne
      simp only [List.mem_singleton] at hc
      subst hc
      rcases hcur with rfl | hcur | hcur
      · exact absurd rfl hne
      · exact Or.inr (by rw [hS cur hcur]; exact hcur)
      · exact Or.inl (le_trans (stripStr_length_le cur) hcur)
    · simp at hc
  | cons seg rest ih =>
    intro cur hsub hcur c hc
    have hsegS : seg ∈ S := hsub seg (by simp)
    have hsub' : ∀ s ∈ rest, s ∈ S := fun x hx => hsub x (by simp [hx])
    unfold LLMService.assemble_chunks at hc
    by_cases hov : cur.length + seg.length > N
    · rw [if_pos hov] at hc
      rcases List.mem_append.mp hc with h' | h'
      · split at h'
        · rename_i hne
          simp only [List.mem_singleton] at h'
          subst h'
          rcases hcur with rfl | hcur | hcur
          · exact absurd rfl hne
          · exact Or.inr (by rw [hS cur hcur]; exact hcur)
          · exact Or.inl (le_trans (stripStr_length_le cur) hcur)
        · simp at h'
      · exact ih seg hsub' (Or.inr (Or.inl hsegS)) c h'
    · rw [if_neg hov] at hc
      by_cases hcur0 : cur = []
      · rw [if_pos hcur0] at hc
        exact ih seg hsub' (Or.inr (Or.inl hsegS)) c hc
      · rw [if_neg hcur0] at hc
        refine ih (cur ++ str "\n\n" ++ seg) hsub' (Or.inr (Or.inr ?_)) c hc
        have : (cur ++ str "\n\n" ++ seg).length = cur.length + 2 + seg.length := by
          simp [str]; omega
        omega

theorem chunk_size_bound_llm (N : Nat) (text : Str) :
    ∀ c ∈ LLMService.chunk_text_intelligently N text,
      c.length ≤ N + 2 ∨
      c ∈ LLMService.select_segments (LLMService.preprocess_text text) := by
  intro c hc
  unfold LLMService.chunk_text_intelligently at hc
  dsimp only at hc
  split at hc
  · exact Or.inl (le_trans (slice_chunks_length_le hc) (by omega))
  · exact assemble_chunks_bound (fun s hs => (select_segments_facts s hs).1) _ []
      (fun s hs => hs) (Or.inl rfl) c hc

theorem split_by_sentences_aux_stripped {t : Str} :
    ∀ {cur s : Str}, s ∈ HebrewTranslator.split_by_sentences_aux cur t →
      ∃ y, s = stripStr y := by
  induction t with
  | nil =>
    intro cur s h
    unfold HebrewTranslator.split_by_sentences_aux at h
    split at h
    · simp at h; exact ⟨cur.reverse, h⟩
    · simp at h
  | cons a t ih =>
    intro cur s h
    unfold HebrewTranslator.split_by_sentences_aux at h
    split at h
    · rcases List.mem_cons.mp h with rfl | h'
      · exact ⟨(a :: cur).reverse, rfl⟩
      · exact ih h'
    · exact ih h

theorem hebrewAtomicUnits_stripped {text : Str} :
    ∀ s ∈ hebrewAtomicUnits text, stripStr s = s := by
  intro s h
  unfold hebrewAtomicUnits at h
  obtain ⟨p, -, hp⟩ := List.mem_flatMap.mp h
  obtain ⟨y, rfl⟩ := split_by_sentences_aux_stripped hp
  exact stripStr_idem y

theorem chunk_sentences_bound {N : Nat} {A : List Str} (hA : ∀ s ∈ A, stripStr s = s) :
    ∀ (ss : List Str) (temp : Str), (∀ s ∈ ss, s ∈ A) →
      (temp = [] ∨ temp ∈ A ∨ temp.length ≤ N) →
      (∀ c ∈ (HebrewTranslator.chunk_sentences N ss temp).1, c.length ≤ N ∨ c ∈ A) ∧
      ((HebrewTranslator.chunk_sentences N ss temp).2 = [] ∨
        (HebrewTranslator.chunk_sentences N ss temp).2 ∈ A ∨
        (HebrewTranslator.chunk_sentences N ss temp).2.length ≤ N) := by
  intro ss
  induction ss with
  | nil =>
    intro temp hsub htemp
    exact ⟨by intro c hc; simp [HebrewTranslator.chunk_sentences] at hc, htemp⟩
  | cons s rest ih =>
    intro temp hsub htemp
    have hsA : s ∈ A := hsub s (by simp)
    have hsub' : ∀ x ∈ rest, x ∈ A := fun x hx => hsub x (by simp [hx])
    unfold HebrewTranslator.chunk_sentences
    by_cases hov : temp.length + s.length + 1 > N
    · rw [if_pos hov]
      obtain ⟨ihc, iht⟩ := ih s hsub' (Or.inr (Or.inl hsA))
      rcases hres : HebrewTranslator.chunk_sentences N rest s with ⟨cs, t⟩
      rw [hres] at ihc iht
      dsimp only
      constructor
      · intro c hc
        rcases List.mem_append.mp hc with h' | h'
        · split at h'
          · rename_i hne
            simp only [List.mem_singleton] at h'
            subst h'
            rcases htemp with rfl | htemp | htemp
            · exact absurd rfl hne
            · exact Or.inr (by rw [hA temp htemp]; exact htemp)
            · exact Or.inl (le_trans (stripStr_length_le temp) htemp)
          · simp at h'
        · exact ihc c h'
      · exact iht
    · rw [if_neg hov]
      by_cases htemp0 : temp = []
      · rw [if_pos htemp0]
        exact ih s hsub' (Or.inr (Or.inl hsA))
      · rw [if_neg htemp0]
        refine ih (temp ++ [' '] ++ s) hsub' (Or.inr (Or.inr ?_))
        have : (temp ++ [' '] ++ s).length = temp.length + 1 + s.length := by simp; omega
        omega

theorem chunk_paragraphs_bound {N : Nat} {A : List Str} (hA : ∀ s ∈ A, stripStr s = s) :
    ∀ (ps : List Str) (cur : Str),
      (∀ p ∈ ps, ∀ s ∈ HebrewTranslator.split_by_sentences p, s ∈ A) →
      (cur = [] ∨ cur ∈ A ∨ cur.length ≤ N) →
      ∀ c ∈ HebrewTranslator.chunk_paragraphs N ps cur, c.length ≤ N ∨ c ∈ A := by
  intro ps
  induction ps with
  | nil =>
    intro cur hsub hcur c hc
    unfold HebrewTranslator.chunk_paragraphs at hc
    split at hc
    · rename_i hne
      simp only [List.mem_singleton] at hc
      subst hc
      rcases hcur with rfl | hcur | hcur
      · exact absurd rfl hne
      · exact Or.inr (by rw [hA cur hcur]; exact hcur)
      · exact Or.inl (le_trans (stripStr_length_le cur) hcur)
    · simp at hc
  | cons p rest ih =>
    intro cur hsub hcur c hc
    have hpsub : ∀ s ∈ HebrewTranslator.split_by_sentences p, s ∈ A := hsub p (by simp)
    have hsub' : ∀ x ∈ rest, ∀ s ∈ HebrewTranslator.split_by_sentences x, s ∈ A :=
      fun x hx => hsub x (by simp [hx])
    unfold HebrewTranslator.chunk_paragraphs at hc
    by_cases hov : cur.length + p.length + 2 > N
    · rw [if_pos hov] at hc
      rcases List.mem_append.mp hc with h' | h'
      · split at h'
        · rename_i hne
          simp only [List.mem_singleton] at h'
          subst h'
          rcases hcur with rfl | hcur | hcur
          · exact absurd rfl hne
          · exact Or.inr (by rw [hA cur hcur]; exact hcur)
          · exact Or.inl (le_trans (stripStr_length_le cur) hcur)
        · simp at h'
      · by_cases hp : p.length > N
        · rw [if_pos hp] at h'
          obtain ⟨ihc, iht⟩ := chunk_sentences_bound hA
            (HebrewTranslator.split_by_sentences p) [] hpsub (Or.inl rfl)
          rcases hres : HebrewTranslator.chunk_sentences N
            (HebrewTranslator.split_by_sentences p) [] with ⟨cs, t⟩
          rw [hres] at h' ihc iht
          dsimp only at h'
          rcases List.mem_append.mp h' with h'' | h''
          · exact ihc c h''
          · exact ih t hsub' iht c h''
        · rw [if_neg hp] at h'
          exact ih p hsub' (Or.inr (Or.inr (by omega))) c h'
    · rw [if_neg hov] at hc
      by_cases hcur0 : cur = []
      · rw [if_pos hcur0] at hc
        subst hcur0
        exact ih p hsub' (Or.inr (Or.inr (by simp at hov; omega))) c hc
      · rw [if_neg hcur0] at hc
        refine ih (cur ++ str "\n\n" ++ p) hsub' (Or.inr (Or.inr ?_)) c hc
        have : (cur ++ str "\n\n" ++ p).length = cur.length + 2 + p.length := by
          simp [str]; omega
        omega

theorem chunk_size_bound_hebrew (N : Nat) (text : Str) :
    ∀ c ∈ HebrewTranslator.chunk_hebrew_text N text,
      c.length ≤ N ∨ c ∈ hebrewAtomicUnits text := by
  intro c hc
  unfold HebrewTranslator.chunk_hebrew_text at hc
  split at hc
  · rename_i hle
    simp only [List.mem_singleton] at hc
    subst hc
    exact Or.inl hle
  · dsimp only at hc
    split at hc
    · exact Or.inl (slice_chunks_length_le hc)
    · refine chunk_paragraphs_bound hebrewAtomicUnits_stripped _ [] ?_ (Or.inl rfl) c hc
      intro p hp s hs
      exact List.mem_flatMap.mpr ⟨p, hp, hs⟩

/-! ## Claim C3 -/

/-- Claim C3, amended: every chunk of `_chunk_text_intelligently` has
length at most `N + 2` — the size check does not count the two-character
`"\n\n"` join separator — except a chunk that is a single detected
segment, which is kept intact even when longer; and every chunk of
`_chunk_hebrew_text` (whose checks do count the separators) has length
at most `N` except a single atomic sentence unit kept intact. -/
theorem chunk_size_bound (N : Nat) (text : Str) :
    (∀ c ∈ LLMService.chunk_text_intelligently N text,
      c.length ≤ N + 2 ∨
      c ∈ LLMService.select_segments (LLMService.preprocess_text text)) ∧
    (∀ c ∈ HebrewTranslator.chunk_hebrew_text N text,
      c.length ≤ N ∨ c ∈ hebrewAtomicUnits text) :=
  ⟨chunk_size_bound_llm N text, chunk_size_bound_hebrew N text⟩

/-- Claim C3, witness: the oversized third question unit (21 characters)
is emitted as its own chunk under the bound 40. -/
theorem chunk_size_bound_witness :
    exLine3.length ≤ 40 + 2 ∨
    exLine3 ∈ LLMService.select_segments (LLMService.preprocess_text exText3) :=
  (chunk_size_bound 40 exText3).1 exLine3 (by decide)

/-! ## Reconstruction facts (claim C4) -/

theorem joinSep_cons_ne {sep x : Str} {L : List Str} (h : L ≠ []) :
    joinSep sep (x :: L) = x ++ sep ++ joinSep sep L := by
  cases L with
  | nil => exact absurd rfl h
  | cons y ys => rfl

theorem edges_of_stripped {s : Str} (h : stripStr s = s) :
    (∀ c, s.head? = some c → isPySpace c = false) ∧
    (∀ c, s.getLast? = some c → isPySpace c = false) := by
  constructor <;> intro c hc
  · exact stripStr_head_false (by rw [h]; exact hc)
  · exact stripStr_getLast_false (by rw [h]; exact hc)

theorem stripStr_join_of {cur seg : Str} (hcur : stripStr cur = cur) (hcne : cur ≠ [])
    (hseg : stripStr seg = seg) (hsne : seg ≠ []) :
    stripStr (cur ++ str "\n\n" ++ seg) = cur ++ str "\n\n" ++ seg := by
  apply stripStr_eq_self
  · intro c hc
    cases cur with
    | nil => exact absurd rfl hcne
    | cons a t =>
      simp only [List.cons_append, List.head?_cons, Option.some.injEq] at hc
      subst hc
      exact (edges_of_stripped hcur).1 a rfl
  · intro c hc
    rw [List.getLast?_append] at hc
    cases hl : seg.getLast? with
    | none => exact absurd (List.getLast?_eq_none_iff.mp hl) hsne
    | some d =>
      rw [hl] at hc
      simp only [Option.or_some, Option.some.injEq] at hc
      subst hc
      exact (edges_of_stripped hseg).2 d hl

theorem assemble_chunks_join {N : Nat} {S : List Str}
    (hS : ∀ s ∈ S, stripStr s = s ∧ s ≠ []) :
    ∀ (segs : List Str) (cur : Str), (∀ s ∈ segs, s ∈ S) →
      (cur = [] ∨ (stripStr cur = cur ∧ cur ≠ [])) →
      joinSep (str "\n\n") (LLMService.assemble_chunks N segs cur) =
        if cur = [] then joinSep (str "\n\n") segs
        else joinSep (str "\n\n") (cur :: segs) := by
  intro segs
  induction segs with
  | nil =>
    intro cur hsub hcur
    rcases hcur with rfl | ⟨hstr, hne⟩
    · rfl
    · unfold LLMService.assemble_chunks
      rw [if_pos hne, if_neg hne, hstr]
  | cons seg rest ih =>
    intro cur hsub hcur
    have hsegS := hS seg (hsub seg (by simp))
    have hsub' : ∀ s ∈ rest, s ∈ S := fun x hx => hsub x (by simp [hx])
    have hrest_ne : ∀ s ∈ rest, s ≠ [] := fun x hx => (hS x (hsub' x hx)).2
    have hih_seg := ih seg hsub' (Or.inr hsegS)
    rw [if_neg hsegS.2] at hih_seg
    unfold LLMService.assemble_chunks
    by_cases hov : cur.length + seg.length > N
    · rw [if_pos hov]
      rcases hcur with rfl | ⟨hstr, hne⟩
      · rw [if_neg (by simp), if_pos rfl]
        simpa using hih_seg
      · rw [if_pos hne, if_neg hne]
        have hLne : LLMService.assemble_chunks N rest seg ≠ [] :=
          assemble_chunks_ne_nil_aux rest seg hsegS.2 hrest_ne
        rw [hstr]
        calc joinSep (str "\n\n") ([cur] ++ LLMService.assemble_chunks N rest seg)
            = cur ++ str "\n\n" ++ joinSep (str "\n\n") (LLMService.assemble_chunks N rest seg) := by
              rw [List.singleton_append, joinSep_cons_ne hLne]
          _ = cur ++ str "\n\n" ++ joinSep (str "\n\n") (seg :: rest) := by rw [hih_seg]
          _ = joinSep (str "\n\n") (cur :: seg :: rest) := by
              rw [joinSep_cons_ne (by simp : seg :: rest ≠ [])]
    · rw [if_neg hov]
      rcases hcur with rfl | ⟨hstr, hne⟩
      · rw [if_pos rfl, if_pos rfl]
        exact hih_seg
      · rw [if_neg hne, if_neg hne]
        have hcur' : stripStr (cur ++ str "\n\n" ++ seg) = cur ++ str "\n\n" ++ seg :=
          stripStr_join_of hstr hne hsegS.1 hsegS.2
        have hih := ih (cur ++ str "\n\n" ++ seg) hsub'
          (Or.inr ⟨hcur', by simp [str]⟩)
        rw [if_neg (by simp [str])] at hih
        rw [hih]
        cases rest with
        | nil => simp [joinSep, List.append_assoc]
        | cons r rs => simp [joinSep, List.append_assoc]

theorem sliceAux_join {N : Nat} (hN : 0 < N) :
    ∀ (fuel : Nat) (s : Str), s.length ≤ fuel → joinAll (sliceAux N fuel s) = s := by
  intro fuel
  induction fuel with
  | zero =>
    intro s hs
    have : s = [] := List.eq_nil_of_length_eq_zero (by omega)
    subst this
    rfl
  | succ f ih =>
    intro s hs
    cases s with
    | nil => rfl
    | cons a t =>
      unfold sliceAux
      show List.take N (a :: t) ++ joinAll (sliceAux N f (List.drop N (a :: t))) = a :: t
      rw [ih (List.drop N (a :: t)) (by rw [List.length_drop]; simp at hs ⊢; omega)]
      exact List.take_append_drop N (a :: t)

theorem slice_chunks_join {N : Nat} {s : Str} (hN : 0 < N) :
    joinAll (slice_chunks N s) = s := by
  unfold slice_chunks
  rw [if_neg (by omega)]
  exact sliceAux_join hN s.length s (le_refl _)

/-! ## Claim C4 -/

/-- Claim C4, amended: the chunks reconstruct exactly the *selected
segments*, not the original input — joining the chunks with the
`"\n\n"` separator equals joining the selected segments with it (or, in
the fixed-width fallback case, plain concatenation of the chunks equals
the preprocessed text).  Content dropped before assembly — boilerplate
removed by preprocessing, segments at or below the length thresholds,
paragraphs failing the question-likeness filter — is not reconstructed. -/
theorem chunker_reconstruction (N : Nat) (text : Str) (hN : 0 < N) :
    joinSep (str "\n\n") (LLMService.chunk_text_intelligently N text) =
      joinSep (str "\n\n")
        (LLMService.select_segments (LLMService.preprocess_text text)) ∨
    joinAll (LLMService.chunk_text_intelligently N text) =
      LLMService.preprocess_text text := by
  unfold LLMService.chunk_text_intelligently
  dsimp only
  split
  · exact Or.inr (slice_chunks_join hN)
  · refine Or.inl ?_
    have := assemble_chunks_join (N := N) select_segments_facts
      (LLMService.select_segments (LLMService.preprocess_text text)) []
      (fun s hs => hs) (Or.inl rfl)
    rw [if_pos rfl] at this
    exact this

/-- Claim C4, witness. -/
theorem chunker_reconstruction_witness :
    joinSep (str "\n\n") (LLMService.chunk_text_intelligently 3000 exQuestionText) =
      joinSep (str "\n\n")
        (LLMService.select_segments (LLMService.preprocess_text exQuestionText)) ∨
    joinAll (LLMService.chunk_text_intelligently 3000 exQuestionText) =
      LLMService.preprocess_text exQuestionText :=
  chunker_reconstruction 3000 exQuestionText (by decide)

/-! ## The final validation loop of `translate_hebrew_to_english` (claim C1) -/

theorem englishAllowedChar_le {c : Char}
    (h : HebrewTranslator.englishAllowedChar c = true) : c.toNat ≤ 0x7A := by
  unfold HebrewTranslator.englishAllowedChar at h
  simp only [Bool.or_eq_true, Bool.and_eq_true, decide_eq_true_eq, beq_iff_eq] at h
  omega

theorem english_not_hebrew {c : Char}
    (h : HebrewTranslator.englishAllowedChar c = true) :
    HebrewTranslator.strictHebrewChar c = false ∧
    HebrewTranslator.hebrewScriptChar c = false := by
  have hle := englishAllowedChar_le h
  unfold HebrewTranslator.strictHebrewChar HebrewTranslator.hebrewScriptChar inR
  constructor <;>
    simp only [Bool.or_eq_false_iff, Bool.and_eq_false_iff, decide_eq_false_iff_not,
      beq_eq_false_iff_ne, ne_eq] <;> omega

theorem contains_hebrew_false_of_english {s : Str}
    (h : ∀ c ∈ s, HebrewTranslator.englishAllowedChar c = true) :
    HebrewTranslator.contains_hebrew_characters s = false :=
  List.any_eq_false.mpr fun c hc => by simp [(english_not_hebrew (h c hc)).1]

theorem digitChar_range (d : Nat) :
    0x30 ≤ (digitChar d).toNat ∧ (digitChar d).toNat ≤ 0x39 := by
  rcases d with _ | _ | _ | _ | _ | _ | _ | _ | _ | d
  · decide
  · decide
  · decide
  · decide
  · decide
  · decide
  · decide
  · decide
  · decide
  · show 0x30 ≤ ('9' : Char).toNat ∧ ('9' : Char).toNat ≤ 0x39
    decide

theorem natStrAux_chars {fuel : Nat} :
    ∀ {n : Nat} {c : Char}, c ∈ natStrAux fuel n → ∃ d, c = digitChar d := by
  induction fuel with
  | zero => intro n c h; simp [natStrAux] at h
  | succ f ih =>
    intro n c h
    unfold natStrAux at h
    split at h
    · simp at h; exact ⟨n, h⟩
    · rcases List.mem_append.mp h with h' | h'
      · exact ih h'
      · simp at h'; exact ⟨n % 10, h'⟩

theorem natStr_not_strict {n : Nat} :
    ∀ c ∈ natStr n, HebrewTranslator.strictHebrewChar c = false := by
  intro c hc
  obtain ⟨d, rfl⟩ := natStrAux_chars hc
  have := digitChar_range d
  unfold HebrewTranslator.strictHebrewChar inR
  simp only [Bool.or_eq_false_iff, Bool.and_eq_false_iff, decide_eq_false_iff_not,
    beq_eq_false_iff_ne, ne_eq]
  omega

theorem strict_of_forceRemoved_false {c : Char}
    (h : HebrewTranslator.forceRemovedChar c = false) :
    HebrewTranslator.strictHebrewChar c = false := by
  unfold HebrewTranslator.forceRemovedChar at h
  exact (Bool.or_eq_false_iff.mp h).1

theorem strip_collapse_filter_not_strict {s : Str} :
    ∀ c ∈ stripStr (collapseWs (s.filter (fun c => !HebrewTranslator.forceRemovedChar c))),
      HebrewTranslator.strictHebrewChar c = false := by
  intro c hc
  rcases mem_collapseWs (mem_stripStr hc) with h' | hmem
  · rw [h']; decide
  · have := List.of_mem_filter hmem
    simp only [Bool.not_eq_true'] at this
    exact strict_of_forceRemoved_false this

theorem marker1_not_strict :
    ∀ c ∈ str "[TRANSLATION_CLEANED: ", HebrewTranslator.strictHebrewChar c = false := by
  decide

theorem marker2_not_strict :
    ∀ c ∈ str " chars -> ", HebrewTranslator.strictHebrewChar c = false := by decide

theorem marker3_not_strict :
    ∀ c ∈ str " chars] ", HebrewTranslator.strictHebrewChar c = false := by decide

theorem force_remove_hebrew_clean (s : Str) :
    HebrewTranslator.contains_hebrew_characters (HebrewTranslator.force_remove_hebrew s) =
      false := by
  unfold HebrewTranslator.force_remove_hebrew
  dsimp only
  apply List.any_eq_false.mpr
  intro c hc
  simp only [Bool.not_eq_true]
  split at hc
  · simp only [List.append_assoc, List.mem_append] at hc
    rcases hc with hc | hc | hc | hc | hc | hc
    · exact marker1_not_strict c hc
    · exact natStr_not_strict c hc
    · exact marker2_not_strict c hc
    · exact natStr_not_strict c hc
    · exact marker3_not_strict c hc
    · exact strip_collapse_filter_not_strict c hc
  · exact strip_collapse_filter_not_strict c hc

theorem mem_layer2fix {s : Str} :
    ∀ c ∈ stripStr (collapseWs (s.filter HebrewTranslator.englishAllowedChar)),
      HebrewTranslator.englishAllowedChar c = true := by
  intro c hc
  rcases mem_collapseWs (mem_stripStr hc) with h' | hmem
  · rw [h']; decide
  · exact List.of_mem_filter hmem

theorem final_validation_step_none_of {nfkc : Str → Str} {s : Str}
    (h : ∀ c ∈ s, HebrewTranslator.englishAllowedChar c = true) (hn : nfkc s = s) :
    HebrewTranslator.final_validation_step nfkc s = none := by
  unfold HebrewTranslator.final_validation_step
  rw [if_neg (by simp [contains_hebrew_false_of_english h]),
    if_neg (by simp; intro c hc; simp [h c hc]), if_neg (by simp [hn])]

theorem final_validation_step_none_english {nfkc : Str → Str} {s : Str}
    (h : HebrewTranslator.final_validation_step nfkc s = none) :
    ∀ c ∈ s, HebrewTranslator.englishAllowedChar c = true := by
  unfold HebrewTranslator.final_validation_step at h
  split at h
  · simp at h
  · split at h
    · simp at h
    · rename_i h1 h2
      intro c hc
      by_contra hbad
      rw [Bool.not_eq_true] at hbad
      exact h2 (List.any_eq_true.mpr ⟨c, hc, by simp [hbad]⟩)

/-- After one `continue` of the validation loop, the text either has no
Hebrew-range characters (layer 1 fired) or is entirely in the layer-2
allowed set (layer 2 fired); layer 3 cannot fire under the NFKC
hypothesis. -/
theorem final_validation_step_some {nfkc : Str → Str} {s t : Str}
    (hn : ∀ u, (∀ c ∈ u, HebrewTranslator.englishAllowedChar c = true) → nfkc u = u)
    (h : HebrewTranslator.final_validation_step nfkc s = some t) :
    HebrewTranslator.contains_hebrew_characters t = false ∨
    (∀ c ∈ t, HebrewTranslator.englishAllowedChar c = true) := by
  unfold HebrewTranslator.final_validation_step at h
  split at h
  · cases h
    exact Or.inl (force_remove_hebrew_clean s)
  · split at h
    · cases h
      exact Or.inr mem_layer2fix
    · rename_i h1 h2
      split at h
      · rename_i h3
        exfalso
        apply h3
        apply hn
        intro c hc
        by_contra hbad
        rw [Bool.not_eq_true] at hbad
        simp only [List.any_eq_true] at h2
        exact h2 ⟨c, hc, by simp [hbad]⟩
      · simp at h

theorem final_validation_loop_english {nfkc : Str → Str} {s : Str}
    (hn : ∀ u, (∀ c ∈ u, HebrewTranslator.englishAllowedChar c = true) → nfkc u = u)
    (hs : ∀ c ∈ s, HebrewTranslator.englishAllowedChar c = true)
    {fuel : Nat} (hf : 0 < fuel) :
    HebrewTranslator.final_validation_loop nfkc fuel s = (s, true) := by
  cases fuel with
  | zero => omega
  | succ f =>
    unfold HebrewTranslator.final_validation_loop
    rw [final_validation_step_none_of hs (hn s hs)]

theorem final_validation_loop_nohebrew {nfkc : Str → Str} {t : Str}
    (hn : ∀ u, (∀ c ∈ u, HebrewTranslator.englishAllowedChar c = true) → nfkc u = u)
    (ht : HebrewTranslator.contains_hebrew_characters t = false)
    {fuel : Nat} (hf : 2 ≤ fuel) :
    (HebrewTranslator.final_validation_loop nfkc fuel t).2 = true ∧
    ∀ c ∈ (HebrewTranslator.final_validation_loop nfkc fuel t).1,
      HebrewTranslator.englishAllowedChar c = true := by
  obtain ⟨f, rfl⟩ : ∃ f, fuel = f + 2 := ⟨fuel - 2, by omega⟩
  show (HebrewTranslator.final_validation_loop nfkc ((f + 1) + 1) t).2 = true ∧ _
  unfold HebrewTranslator.final_validation_loop
  cases hstep : HebrewTranslator.final_validation_step nfkc t with
  | none => exact ⟨rfl, final_validation_step_none_english hstep⟩
  | some u =>
    have hu : ∀ c ∈ u, HebrewTranslator.englishAllowedChar c = true := by
      unfold HebrewTranslator.final_validation_step at hstep
      rw [if_neg (by simp [ht])] at hstep
      split at hstep
      · cases hstep
        exact mem_layer2fix
      · rename_i h2
        split at hstep
        · rename_i h3
          exfalso
          apply h3
          apply hn
          intro c hc
          by_contra hbad
          rw [Bool.not_eq_true] at hbad
          simp only [List.any_eq_true] at h2
          exact h2 ⟨c, hc, by simp [hbad]⟩
        · simp at hstep
    dsimp only
    rw [final_validation_loop_english hn hu (by omega)]
    exact ⟨rfl, hu⟩

theorem final_validation_loop_ok {nfkc : Str → Str} {s : Str}
    (hn : ∀ u, (∀ c ∈ u, HebrewTranslator.englishAllowedChar c = true) → nfkc u = u) :
    (HebrewTranslator.final_validation_loop nfkc 3 s).2 = true ∧
    ∀ c ∈ (HebrewTranslator.final_validation_loop nfkc 3 s).1,
      HebrewTranslator.englishAllowedChar c = true := by
  show (HebrewTranslator.final_validation_loop nfkc (2 + 1) s).2 = true ∧ _
  unfold HebrewTranslator.final_validation_loop
  cases hstep : HebrewTranslator.final_validation_step nfkc s with
  | none => exact ⟨rfl, final_validation_step_none_english hstep⟩
  | some t =>
    dsimp only
    rcases final_validation_step_some hn hstep with ht | ht
    · exact final_validation_loop_nohebrew hn ht (by omega)
    · rw [final_validation_loop_english hn ht (by omega)]
      exact ⟨rfl, ht⟩

theorem finalize_translation_english {nfkc : Str → Str} {f0 : Str}
    (hn : ∀ u, (∀ c ∈ u, HebrewTranslator.englishAllowedChar c = true) → nfkc u = u) :
    ∀ c ∈ (HebrewTranslator.finalize_translation nfkc f0).1,
      HebrewTranslator.englishAllowedChar c = true := by
  obtain ⟨hp, hall⟩ := final_validation_loop_ok (s := f0) hn
  unfold HebrewTranslator.finalize_translation
  rcases hres : HebrewTranslator.final_validation_loop nfkc 3 f0 with ⟨f1, passed⟩
  rw [hres] at hp hall
  dsimp only at hp hall ⊢
  subst hp
  simpa using hall

theorem translate_flag_cases (text : Str) (oracle : Nat → Nat → Except Unit Str)
    (nfkc : Str → Str) :
    (HebrewTranslator.translate_hebrew_to_english text oracle nfkc).1.hebrew_free_guaranteed
      = false ∨
    ∃ f0, (HebrewTranslator.translate_hebrew_to_english text oracle nfkc).1.translated_text
      = (HebrewTranslator.finalize_translation nfkc f0).1 := by
  unfold HebrewTranslator.translate_hebrew_to_english
  dsimp only
  split
  · split
    · exact Or.inl rfl
    · exact Or.inr ⟨_, rfl⟩
  · exact Or.inl rfl

/-! ## Claim C1 -/

/-- Claim C1: whenever `translate_hebrew_to_english` returns a result with
`hebrew_free_guaranteed = True`, every character of `translated_text` is
in the declared layer-2 English allow-list — in particular it contains no
Hebrew-script character.  (`nfkc` models `unicodedata.normalize('NFKC', ·)`;
the hypothesis that NFKC fixes strings made only of the allow-list's ASCII
characters is a fact of Unicode normalization.) -/
theorem hebrew_free_guarantee (text : Str) (oracle : Nat → Nat → Except Unit Str)
    (nfkc : Str → Str)
    (hn : ∀ u, (∀ c ∈ u, HebrewTranslator.englishAllowedChar c = true) → nfkc u = u)
    (hflag : (HebrewTranslator.translate_hebrew_to_english text oracle
      nfkc).1.hebrew_free_guaranteed = true) :
    ∀ c ∈ (HebrewTranslator.translate_hebrew_to_english text oracle nfkc).1.translated_text,
      HebrewTranslator.englishAllowedChar c = true ∧
      HebrewTranslator.hebrewScriptChar c = false := by
  rcases translate_flag_cases text oracle nfkc with h | ⟨f0, heq⟩
  · rw [hflag] at h; simp at h
  · rw [heq]
    intro c hc
    have hall := finalize_translation_english hn c hc
    exact ⟨hall, (english_not_hebrew hall).2⟩

/-- Claim C1, witness: a Hebrew input translated by the fixed oracle
yields the guarantee flag, and the theorem applies with `nfkc := id` at
the first character of the flagged result. -/
theorem hebrew_free_guarantee_witness :
    HebrewTranslator.englishAllowedChar 'H' = true ∧
    HebrewTranslator.hebrewScriptChar 'H' = false :=
  hebrew_free_guarantee (str "שלום עולם") orHello id (fun _ _ => rfl) (by decide)
    'H' (by decide)

/-! ## The script sanitizer (claim C5) -/

theorem mem_strip_collapse_filter_allowed {x : Str} :
    ∀ c ∈ stripStr (collapseWs (x.filter HebrewTranslator.allowedReChar)),
      HebrewTranslator.allowedReChar c = true := by
  intro c hc
  rcases mem_collapseWs (mem_stripStr hc) with h' | hmem
  · rw [h']; decide
  · exact List.of_mem_filter hmem

theorem containsSub_cons {pat t : Str} {c : Char} (h : containsSub pat t = true) :
    containsSub pat (c :: t) = true := by
  unfold containsSub at *
  obtain ⟨i, hi, hp⟩ := List.any_eq_true.mp h
  refine List.any_eq_true.mpr ⟨i + 1, ?_, by simpa using hp⟩
  simp only [List.mem_range] at hi ⊢
  simp only [List.length_cons]
  omega

theorem not_prefix_of_not_contains {pat s : Str} (h : containsSub pat s = false) :
    pat.isPrefixOf s = false := by
  by_contra hbad
  rw [Bool.not_eq_false] at hbad
  unfold containsSub at h
  rw [List.any_eq_false] at h
  exact absurd (by simpa using hbad) (h 0 (by simp))

theorem removeAllAux_id {pat : Str} :
    ∀ {fuel : Nat} {s : Str}, containsSub pat s = false → removeAllAux pat fuel s = s := by
  intro fuel
  induction fuel with
  | zero => intro s h; cases s <;> rfl
  | succ f ih =>
    intro s h
    cases s with
    | nil => rfl
    | cons c t =>
      unfold removeAllAux
      rw [if_neg (by
        rintro ⟨-, hpre⟩
        rw [not_prefix_of_not_contains h] at hpre
        exact Bool.false_ne_true hpre)]
      have ht : containsSub pat t = false := by
        by_contra hbad
        rw [Bool.not_eq_false] at hbad
        rw [containsSub_cons hbad] at h
        exact absurd h (by decide)
      rw [ih ht]

theorem removeAll_id {pat s : Str} (h : containsSub pat s = false) :
    removeAll pat s = s := removeAllAux_id h

theorem collapseWs_head {d : Char} {t : Str} (hd : isPySpace d = false) :
    ∃ t', collapseWs (d :: t) = d :: t' := by
  cases t with
  | nil => exact ⟨[], by simp [collapseWs, hd]⟩
  | cons e t'' => exact ⟨collapseWs (e :: t''), by simp [collapseWs, hd]⟩

theorem collapseWs_chain (s : Str) :
    List.Chain' (fun a b => isPySpace a = false ∨ isPySpace b = false) (collapseWs s) := by
  induction s with
  | nil => simp [collapseWs]
  | cons c t ih =>
    cases t with
    | nil =>
      unfold collapseWs
      split <;> simp
    | cons d t' =>
      unfold collapseWs
      by_cases hc : isPySpace c = true
      · rw [if_pos hc]
        by_cases hd : isPySpace d = true
        · rw [if_pos hd]
          exact ih
        · rw [if_neg hd]
          rw [Bool.not_eq_true] at hd
          obtain ⟨t'', ht''⟩ := collapseWs_head (t := t') hd
          rw [List.chain'_cons']
          refine ⟨?_, ih⟩
          intro b hb
          rw [ht''] at hb
          simp only [List.head?_cons, Option.mem_def, Option.some.injEq] at hb
          subst hb
          exact Or.inr hd
      · rw [if_neg hc]
        rw [Bool.not_eq_true] at hc
        rw [List.chain'_cons']
        exact ⟨fun b _ => Or.inl hc, ih⟩

theorem collapseWs_space (s : Str) :
    ∀ c ∈ collapseWs s, isPySpace c = true → c = ' ' := by
  induction s with
  | nil => simp [collapseWs]
  | cons c t ih =>
    cases t with
    | nil =>
      unfold collapseWs
      intro x hx hws
      split at hx
      · simpa using hx
      · rename_i hc
        simp only [List.mem_singleton] at hx
        subst hx
        exact absurd hws hc
    | cons d t' =>
      unfold collapseWs
      intro x hx hws
      by_cases hc : isPySpace c = true
      · rw [if_pos hc] at hx
        by_cases hd : isPySpace d = true
        · rw [if_pos hd] at hx
          exact ih x hx hws
        · rw [if_neg hd] at hx
          rcases List.mem_cons.mp hx with rfl | hx'
          · rfl
          · exact ih x hx' hws
      · rw [if_neg hc] at hx
        rcases List.mem_cons.mp hx with rfl | hx'
        · exact absurd hws hc
        · exact ih x hx' hws

theorem collapseWs_fixpoint :
    ∀ {s : Str},
      List.Chain' (fun a b => isPySpace a = false ∨ isPySpace b = false) s →
      (∀ c ∈ s, isPySpace c = true → c = ' ') → collapseWs s = s := by
  intro s
  induction s with
  | nil => intro _ _; rfl
  | cons c t ih =>
    intro h1 h2
    cases t with
    | nil =>
      unfold collapseWs
      split
      · rename_i hc
        rw [h2 c (by simp) hc]
      · rfl
    | cons d t' =>
      unfold collapseWs
      have htail := (List.chain'_cons.mp h1).2
      have h2' : ∀ x ∈ d :: t', isPySpace x = true → x = ' ' :=
        fun x hx => h2 x (by simp [hx])
      by_cases hc : isPySpace c = true
      · rw [if_pos hc]
        have hd : isPySpace d = false := by
          rcases (List.chain'_cons.mp h1).1 with h' | h'
          · rw [h'] at hc; exact absurd hc (by simp)
          · exact h'
        rw [if_neg (by simp [hd])]
        rw [ih htail h2', h2 c (by simp) hc]
      · rw [if_neg hc]
        rw [ih htail h2']

theorem stripStr_within (s : Str) : stripStr s <:+: s := by
  unfold stripStr
  have h1 : (s.dropWhile isPySpace) <:+ s := List.dropWhile_suffix isPySpace
  have h2 : ((s.dropWhile isPySpace).reverse.dropWhile isPySpace) <:+
      (s.dropWhile isPySpace).reverse := List.dropWhile_suffix isPySpace
  obtain ⟨t, ht⟩ := h2
  have hpre : ((s.dropWhile isPySpace).reverse.dropWhile isPySpace).reverse <+:
      (s.dropWhile isPySpace) := by
    refine ⟨t.reverse, ?_⟩
    have := congrArg List.reverse ht
    simpa [List.reverse_append] using this
  exact hpre.isInfix.trans h1.isInfix

theorem fold_strip_removeAll_id {o : Str} (ho : stripStr o = o) :
    ∀ (L : List Str), (∀ a ∈ L, containsSub a o = false) →
      L.foldl (fun t a => stripStr (removeAll a t)) o = o := by
  intro L
  induction L with
  | nil => intro _; rfl
  | cons a L' ih =>
    intro h
    simp only [List.foldl_cons]
    rw [removeAll_id (h a (by simp)), ho]
    exact ih (fun x hx => h x (by simp [hx]))

theorem sanitize_fixpoint {o : Str} (hne : o ≠ [])
    (hstrip : stripStr o = o) (hcoll : collapseWs o = o)
    (hfilter : List.filter HebrewTranslator.allowedReChar o = o)
    (ha : ∀ a ∈ HebrewTranslator.translationArtifacts, containsSub a o = false) :
    HebrewTranslator.sanitize_llm_response o = o := by
  unfold HebrewTranslator.sanitize_llm_response
  rw [if_neg hne]
  dsimp only
  rw [hstrip, fold_strip_removeAll_id hstrip _ ha, hfilter, hcoll, hstrip, if_neg hne]

theorem sanitize_shape (raw : Str) :
    HebrewTranslator.sanitize_llm_response raw = str "[EMPTY_RESPONSE]" ∨
    HebrewTranslator.sanitize_llm_response raw = str "[SANITIZATION_FAILED]" ∨
    (∃ x, HebrewTranslator.sanitize_llm_response raw =
        stripStr (collapseWs (List.filter HebrewTranslator.allowedReChar x)) ∧
      HebrewTranslator.sanitize_llm_response raw ≠ []) := by
  unfold HebrewTranslator.sanitize_llm_response
  dsimp only
  split
  · exact Or.inl rfl
  · split
    · exact Or.inr (Or.inl rfl)
    · rename_i hne
      exact Or.inr (Or.inr ⟨_, rfl, hne⟩)

/-! ## Claim C5 -/

/-- Claim C5, amended: every character of the sanitizer's output is in the
declared allow-list unless the output is one of the two fixed sentinel
strings (`[EMPTY_RESPONSE]` for empty input, `[SANITIZATION_FAILED]`
when nothing survives cleaning); and re-running the sanitizer is the
identity on any output that is not a sentinel and contains no occurrence
of an artifact phrase (character filtering can recreate an artifact such
as `Translation:`, which a second run would then remove). -/
theorem sanitize_allowlist_and_idem (raw : Str)
    (h1 : HebrewTranslator.sanitize_llm_response raw ≠ str "[EMPTY_RESPONSE]")
    (h2 : HebrewTranslator.sanitize_llm_response raw ≠ str "[SANITIZATION_FAILED]")
    (h3 : ∀ a ∈ HebrewTranslator.translationArtifacts,
      containsSub a (HebrewTranslator.sanitize_llm_response raw) = false) :
    (∀ c ∈ HebrewTranslator.sanitize_llm_response raw,
      HebrewTranslator.allowedReChar c = true) ∧
    HebrewTranslator.sanitize_llm_response (HebrewTranslator.sanitize_llm_response raw) =
      HebrewTranslator.sanitize_llm_response raw := by
  rcases sanitize_shape raw with h | h | ⟨x, hx, hne⟩
  · exact absurd h h1
  · exact absurd h h2
  · have hmem : ∀ c ∈ HebrewTranslator.sanitize_llm_response raw,
        HebrewTranslator.allowedReChar c = true := by
      rw [hx]; exact mem_strip_collapse_filter_allowed
    refine ⟨hmem, ?_⟩
    have hstrip : stripStr (HebrewTranslator.sanitize_llm_response raw) =
        HebrewTranslator.sanitize_llm_response raw := by
      rw [hx]; exact stripStr_idem _
    have hchain : List.Chain' (fun a b => isPySpace a = false ∨ isPySpace b = false)
        (HebrewTranslator.sanitize_llm_response raw) := by
      rw [hx]
      exact List.Chain'.infix (collapseWs_chain _) (stripStr_within _)
    have hspace : ∀ c ∈ HebrewTranslator.sanitize_llm_response raw,
        isPySpace c = true → c = ' ' := by
      rw [hx]
      intro c hc
      exact collapseWs_space _ c (mem_stripStr hc)
    have hcoll : collapseWs (HebrewTranslator.sanitize_llm_response raw) =
        HebrewTranslator.sanitize_llm_response raw := collapseWs_fixpoint hchain hspace
    have hfilter : List.filter HebrewTranslator.allowedReChar
        (HebrewTranslator.sanitize_llm_response raw) =
        HebrewTranslator.sanitize_llm_response raw := List.filter_eq_self.mpr hmem
    exact sanitize_fixpoint hne hstrip hcoll hfilter h3

/-- Claim C5, witness: a clean English sentence is already in sanitized
form — its first character is in the allow-list and the sanitizer is the
identity on it. -/
theorem sanitize_allowlist_and_idem_witness :
    HebrewTranslator.allowedReChar 'I' = true ∧
    HebrewTranslator.sanitize_llm_response
        (HebrewTranslator.sanitize_llm_response (str "It is a good day.")) =
      HebrewTranslator.sanitize_llm_response (str "It is a good day.") :=
  ⟨(sanitize_allowlist_and_idem (str "It is a good day.") (by decide) (by decide)
      (by decide)).1 'I' (by decide),
    (sanitize_allowlist_and_idem (str "It is a good day.") (by decide) (by decide)
      (by decide)).2⟩

/-- Claim C5, counterexample: the empty input yields the sentinel
`[EMPTY_RESPONSE]`, whose `[` is outside the allow-list; and on
`"Translationא: hello"` the filter recreates the artifact phrase
`Translation:`, so a second run removes it and the sanitizer is not
idempotent. -/
theorem sanitize_counterexample :
    (∃ c ∈ HebrewTranslator.sanitize_llm_response (str ""),
      HebrewTranslator.allowedReChar c = false) ∧
    HebrewTranslator.sanitize_llm_response
        (HebrewTranslator.sanitize_llm_response (str "Translationא: hello")) ≠
      HebrewTranslator.sanitize_llm_response (str "Translationא: hello") := by decide

end CramCortex
